import Mathlib

/-!
Verification of the end-to-end encryption core of `src/lib/crypto.ts`
(secrate-chat).  The Web Crypto / platform primitives (AES-GCM, RSA-OAEP,
PBKDF2, base64, JSON, TextEncoder) are modelled executably: byte buffers are
`List Nat` (each entry < 256), randomness is threaded as explicit parameters,
and each authenticated-encryption primitive is an idealized injective encoding
whose decryptor accepts exactly its own outputs (the AEAD / OAEP idealization
the spec relies on).  The repository functions themselves are translated
statement-by-statement from `crypto.ts`.
-/

namespace Crypto

/-- 4-byte big-endian encoding of a length / small natural (faithful for
`n < 2^32`, matching JS ArrayBuffer size limits). -/
def encodeLen (n : Nat) : List Nat :=
  [n / 2 ^ 24 % 256, n / 2 ^ 16 % 256, n / 2 ^ 8 % 256, n % 256]

/-- Reads a 4-byte big-endian length; total (shorter lists read as 0). -/
def decodeLen : List Nat → Nat
  | a :: b :: c :: d :: _ => a * 2 ^ 24 + b * 2 ^ 16 + c * 2 ^ 8 + d
  | _ => 0

theorem encodeLen_length (n : Nat) : (encodeLen n).length = 4 := rfl

theorem decodeLen_encodeLen (n : Nat) (h : n < 2 ^ 32) :
    decodeLen (encodeLen n) = n := by
  simp only [encodeLen, decodeLen]
  omega

theorem decodeLen_lt (l : List Nat) (h : ∀ b ∈ l, b < 256) :
    decodeLen l < 2 ^ 32 := by
  match l with
  | [] => simp [decodeLen]
  | [a] => simp [decodeLen]
  | [a, b] => simp [decodeLen]
  | [a, b, c] => simp [decodeLen]
  | a :: b :: c :: d :: rest =>
    have ha := h a (by simp)
    have hb := h b (by simp)
    have hc := h c (by simp)
    have hd := h d (by simp)
    simp only [decodeLen]
    omega

theorem encodeLen_mem_lt (n b : Nat) (h : b ∈ encodeLen n) : b < 256 := by
  simp only [encodeLen, List.mem_cons, List.not_mem_nil, or_false] at h
  rcases h with rfl | rfl | rfl | rfl <;> exact Nat.mod_lt _ (by norm_num)

theorem encodeLen_inj {a b : Nat} (ha : a < 2 ^ 32) (hb : b < 2 ^ 32)
    (h : encodeLen a = encodeLen b) : a = b := by
  have h1 := congrArg decodeLen h
  rwa [decodeLen_encodeLen a ha, decodeLen_encodeLen b hb] at h1

/-- Flip bit `j` of the byte at position `p` (identity when `p` is out of
range, as for `Uint8Array` views). -/
def flipBit (p j : Nat) (l : List Nat) : List Nat :=
  l.set p (l.getD p 0 ^^^ 2 ^ j)

theorem flipBit_length (p j : Nat) (l : List Nat) :
    (flipBit p j l).length = l.length := by
  simp [flipBit]

theorem getElem?_of_lt (l : List Nat) (p : Nat) (hp : p < l.length) :
    l[p]? = some (l.getD p 0) := by
  cases he : l[p]? with
  | none =>
    have := List.getElem?_eq_none_iff.mp he
    omega
  | some b =>
    unfold List.getD
    rw [List.get?_eq_getElem?, he]
    rfl

theorem getD_lt (l : List Nat) (h : ∀ b ∈ l, b < 256) (p : Nat) :
    l.getD p 0 < 256 := by
  cases he : l[p]? with
  | none =>
    unfold List.getD
    rw [List.get?_eq_getElem?, he]
    norm_num
  | some b =>
    have hb := h b (List.getElem?_mem he)
    unfold List.getD
    rw [List.get?_eq_getElem?, he]
    exact hb

theorem flipBit_ne (p j : Nat) (l : List Nat) (hp : p < l.length) :
    flipBit p j l ≠ l := by
  intro h
  have hget : (flipBit p j l)[p]? = l[p]? := by rw [h]
  unfold flipBit at hget
  rw [List.getElem?_set_self (by exact hp), getElem?_of_lt l p hp] at hget
  have h2 : l.getD p 0 ^^^ 2 ^ j = l.getD p 0 := Option.some.inj hget
  have h3 : (2 : Nat) ^ j = 0 := by
    have h4 := congrArg (fun x => l.getD p 0 ^^^ x) h2
    simp only [← Nat.xor_assoc, Nat.xor_self, Nat.zero_xor] at h4
    exact h4
  exact (Nat.two_pow_pos j).ne' h3

theorem flipBit_getElem_ne (p j q : Nat) (l : List Nat) (hne : p ≠ q) :
    (flipBit p j l)[q]? = l[q]? := by
  unfold flipBit
  exact List.getElem?_set_ne hne

theorem flipBit_take (p j n : Nat) (l : List Nat) (h : n ≤ p) :
    (flipBit p j l).take n = l.take n := by
  apply List.ext_getElem?
  intro i
  rw [List.getElem?_take, List.getElem?_take]
  by_cases hi : i < n
  · rw [if_pos hi, if_pos hi, flipBit_getElem_ne p j i l (by omega)]
  · rw [if_neg hi, if_neg hi]

theorem flipBit_drop (p j n : Nat) (l : List Nat) (h : p < n) :
    (flipBit p j l).drop n = l.drop n := by
  unfold flipBit
  rw [List.drop_set, if_pos h]

theorem flipBit_mem_lt (p j : Nat) (l : List Nat) (hj : j < 8)
    (h : ∀ b ∈ l, b < 256) : ∀ b ∈ flipBit p j l, b < 256 := by
  intro b hb
  unfold flipBit at hb
  rcases List.mem_or_eq_of_mem_set hb with h1 | h1
  · exact h b h1
  · subst h1
    have h2 : l.getD p 0 < 2 ^ 8 := getD_lt l h p
    have h3 : (2 : Nat) ^ j < 2 ^ 8 := Nat.pow_lt_pow_right (by norm_num) hj
    exact Nat.xor_lt_two_pow h2 h3

/-! ### Base64 (`btoa` / `atob`)

The code always calls `btoa(String.fromCharCode(...bytes))`, so we model the
composition directly on byte lists.  `atob` is modelled strictly (canonical
padding, zero leftover bits); the HTML "forgiving base64" tolerances
(whitespace stripping, missing padding, nonzero leftover bits) only widen the
acceptance set in ways no claim exercises. -/

/-- The base64 alphabet. -/
def b64Alphabet : List Char :=
  "ABCDEFGHIJKLMNOPQRSTUVWXYZabcdefghijklmnopqrstuvwxyz0123456789+/".data

/-- Character for a 6-bit group. -/
def b64Char (n : Nat) : Char := b64Alphabet.getD n 'A'

/-- Index of a base64 character, `none` for characters outside the alphabet. -/
def b64Val (c : Char) : Option Nat := (List.range 64).find? (fun n => b64Char n = c)

theorem b64Val_b64Char_aux : ∀ n < 64, b64Val (b64Char n) = some n := by decide

theorem b64Val_b64Char (n : Nat) (h : n < 64) : b64Val (b64Char n) = some n :=
  b64Val_b64Char_aux n h

theorem b64Val_some {c : Char} {v : Nat} (h : b64Val c = some v) :
    v < 64 ∧ b64Char v = c := by
  unfold b64Val at h
  have h1 := List.find?_some h
  have h2 := List.mem_of_find?_eq_some h
  simp only [decide_eq_true_eq] at h1
  simp only [List.mem_range] at h2
  exact ⟨h2, h1⟩

theorem b64Alphabet_length : b64Alphabet.length = 64 := by decide

theorem b64Char_ne_pad : ∀ n, b64Char n ≠ '=' := by
  intro n
  by_cases h : n < 64
  · exact (by decide : ∀ m < 64, b64Char m ≠ '=') n h
  · unfold b64Char
    rw [List.getD_eq_default]
    · decide
    · rw [b64Alphabet_length]
      omega

/-- `btoa(String.fromCharCode(...bytes))`: base64-encode a byte list. -/
def btoa : List Nat → List Char
  | [] => []
  | [b0] => [b64Char (b0 / 4), b64Char (b0 % 4 * 16), '=', '=']
  | [b0, b1] => [b64Char (b0 / 4), b64Char (b0 % 4 * 16 + b1 / 16),
      b64Char (b1 % 16 * 4), '=']
  | b0 :: b1 :: b2 :: rest =>
    b64Char (b0 / 4) :: b64Char (b0 % 4 * 16 + b1 / 16) ::
      b64Char (b1 % 16 * 4 + b2 / 64) :: b64Char (b2 % 64) :: btoa rest

/-- `atob`: base64-decode, `none` on malformed input (JS throws
`InvalidCharacterError`). -/
def atob : List Char → Option (List Nat)
  | [] => some []
  | c0 :: c1 :: c2 :: c3 :: rest =>
    if c2 = '=' then
      if c3 = '=' ∧ rest = [] then
        match b64Val c0, b64Val c1 with
        | some v0, some v1 =>
          if v1 % 16 = 0 then some [v0 * 4 + v1 / 16] else none
        | _, _ => none
      else none
    else if c3 = '=' then
      if rest = [] then
        match b64Val c0, b64Val c1, b64Val c2 with
        | some v0, some v1, some v2 =>
          if v2 % 4 = 0 then some [v0 * 4 + v1 / 16, v1 % 16 * 16 + v2 / 4]
          else none
        | _, _, _ => none
      else none
    else
      match b64Val c0, b64Val c1, b64Val c2, b64Val c3, atob rest with
      | some v0, some v1, some v2, some v3, some bs =>
        some ([v0 * 4 + v1 / 16, v1 % 16 * 16 + v2 / 4, v2 % 4 * 64 + v3] ++ bs)
      | _, _, _, _, _ => none
  | _ => none

theorem atob_btoa : ∀ (l : List Nat), (∀ b ∈ l, b < 256) →
    atob (btoa l) = some l
  | [], _ => rfl
  | [b0], h => by
    have hb0 : b0 < 256 := h b0 (by simp)
    simp only [btoa, atob]
    rw [b64Val_b64Char (b0 / 4) (by omega), b64Val_b64Char (b0 % 4 * 16) (by omega)]
    simp only [if_true, and_self, reduceIte]
    rw [if_pos (by omega)]
    have e1 : b0 / 4 * 4 + b0 % 4 * 16 / 16 = b0 := by omega
    rw [e1]
  | [b0, b1], h => by
    have hb0 : b0 < 256 := h b0 (by simp)
    have hb1 : b1 < 256 := h b1 (by simp)
    simp only [btoa, atob]
    rw [b64Val_b64Char (b0 / 4) (by omega),
      b64Val_b64Char (b0 % 4 * 16 + b1 / 16) (by omega),
      b64Val_b64Char (b1 % 16 * 4) (by omega)]
    simp only [if_true, and_self, reduceIte, b64Char_ne_pad, if_false]
    rw [if_pos (by omega)]
    have e1 : b0 / 4 * 4 + (b0 % 4 * 16 + b1 / 16) / 16 = b0 := by omega
    have e2 : (b0 % 4 * 16 + b1 / 16) % 16 * 16 + b1 % 16 * 4 / 4 = b1 := by omega
    rw [e1, e2]
  | b0 :: b1 :: b2 :: rest, h => by
    have hb0 : b0 < 256 := h b0 (by simp)
    have hb1 : b1 < 256 := h b1 (by simp)
    have hb2 : b2 < 256 := h b2 (by simp)
    have ih := atob_btoa rest (fun b hb => h b (by simp [hb]))
    simp only [btoa, atob]
    rw [b64Val_b64Char (b0 / 4) (by omega),
      b64Val_b64Char (b0 % 4 * 16 + b1 / 16) (by omega),
      b64Val_b64Char (b1 % 16 * 4 + b2 / 64) (by omega),
      b64Val_b64Char (b2 % 64) (by omega), ih]
    simp only [if_true, and_self, reduceIte, b64Char_ne_pad, if_false]
    have e1 : b0 / 4 * 4 + (b0 % 4 * 16 + b1 / 16) / 16 = b0 := by omega
    have e2 : (b0 % 4 * 16 + b1 / 16) % 16 * 16 + (b1 % 16 * 4 + b2 / 64) / 4 = b1 := by
      omega
    have e3 : (b1 % 16 * 4 + b2 / 64) % 4 * 64 + b2 % 64 = b2 := by omega
    rw [e1, e2, e3]
    rfl

/-- `atob` accepts only canonical `btoa` images (strict padding model):
success pins down the input as the encoding of the returned bytes. -/
theorem btoa_atob : ∀ (s : List Char) (b : List Nat), atob s = some b →
    btoa b = s ∧ ∀ x ∈ b, x < 256
  | [], b, h => by
    simp only [atob, Option.some.injEq] at h
    subst h
    exact ⟨rfl, by simp⟩
  | [c], b, h => by simp [atob] at h
  | [c0, c1], b, h => by simp [atob] at h
  | [c0, c1, c2], b, h => by simp [atob] at h
  | c0 :: c1 :: c2 :: c3 :: rest, b, h => by
    simp only [atob] at h
    by_cases hc2 : c2 = '='
    · rw [if_pos hc2] at h
      by_cases h34 : c3 = '=' ∧ rest = []
      · rw [if_pos h34] at h
        obtain ⟨hc3, hrest⟩ := h34
        subst hc2; subst hc3; subst hrest
        cases hv0 : b64Val c0 with
        | none => rw [hv0] at h; simp at h
        | some v0 =>
          cases hv1 : b64Val c1 with
          | none => rw [hv0, hv1] at h; simp at h
          | some v1 =>
            rw [hv0, hv1] at h
            dsimp only at h
            by_cases hg : v1 % 16 = 0
            · rw [if_pos hg, Option.some.injEq] at h
              subst h
              obtain ⟨hv0lt, hv0c⟩ := b64Val_some hv0
              obtain ⟨hv1lt, hv1c⟩ := b64Val_some hv1
              refine ⟨?_, ?_⟩
              · simp only [btoa]
                have e1 : (v0 * 4 + v1 / 16) / 4 = v0 := by omega
                have e2 : (v0 * 4 + v1 / 16) % 4 * 16 = v1 := by omega
                rw [e1, e2, hv0c, hv1c]
              · intro x hx
                simp only [List.mem_singleton] at hx
                subst hx
                omega
            · rw [if_neg hg] at h; exact absurd h (by simp)
      · rw [if_neg h34] at h; exact absurd h (by simp)
    · rw [if_neg hc2] at h
      by_cases hc3 : c3 = '='
      · rw [if_pos hc3] at h
        by_cases hrest : rest = []
        · rw [if_pos hrest] at h
          subst hc3; subst hrest
          cases hv0 : b64Val c0 with
          | none => rw [hv0] at h; simp at h
          | some v0 =>
            cases hv1 : b64Val c1 with
            | none => rw [hv0, hv1] at h; simp at h
            | some v1 =>
              cases hv2 : b64Val c2 with
              | none => rw [hv0, hv1, hv2] at h; simp at h
              | some v2 =>
                rw [hv0, hv1, hv2] at h
                dsimp only at h
                by_cases hg : v2 % 4 = 0
                · rw [if_pos hg, Option.some.injEq] at h
                  subst h
                  obtain ⟨hv0lt, hv0c⟩ := b64Val_some hv0
                  obtain ⟨hv1lt, hv1c⟩ := b64Val_some hv1
                  obtain ⟨hv2lt, hv2c⟩ := b64Val_some hv2
                  refine ⟨?_, ?_⟩
                  · simp only [btoa]
                    have e1 : (v0 * 4 + v1 / 16) / 4 = v0 := by omega
                    have e2 : (v0 * 4 + v1 / 16) % 4 * 16 + (v1 % 16 * 16 + v2 / 4) / 16 = v1 := by omega
                    have e3 : (v1 % 16 * 16 + v2 / 4) % 16 * 4 = v2 := by omega
                    rw [e1, e2, e3, hv0c, hv1c, hv2c]
                  · intro x hx
                    simp only [List.mem_cons, List.not_mem_nil, or_false] at hx
                    rcases hx with rfl | rfl <;> omega
                · rw [if_neg hg] at h; exact absurd h (by simp)
        · rw [if_neg hrest] at h; exact absurd h (by simp)
      · rw [if_neg hc3] at h
        cases hv0 : b64Val c0 with
        | none => rw [hv0] at h; simp at h
        | some v0 =>
          cases hv1 : b64Val c1 with
          | none => rw [hv0, hv1] at h; simp at h
          | some v1 =>
            cases hv2 : b64Val c2 with
            | none => rw [hv0, hv1, hv2] at h; simp at h
            | some v2 =>
              cases hv3 : b64Val c3 with
              | none => rw [hv0, hv1, hv2, hv3] at h; simp at h
              | some v3 =>
                cases hr : atob rest with
                | none => rw [hv0, hv1, hv2, hv3, hr] at h; simp at h
                | some bs =>
                  rw [hv0, hv1, hv2, hv3, hr, Option.some.injEq] at h
                  subst h
                  obtain ⟨hv0lt, hv0c⟩ := b64Val_some hv0
                  obtain ⟨hv1lt, hv1c⟩ := b64Val_some hv1
                  obtain ⟨hv2lt, hv2c⟩ := b64Val_some hv2
                  obtain ⟨hv3lt, hv3c⟩ := b64Val_some hv3
                  obtain ⟨ihb, ihlt⟩ := btoa_atob rest bs hr
                  refine ⟨?_, ?_⟩
                  · simp only [List.cons_append, List.nil_append, btoa]
                    have e1 : (v0 * 4 + v1 / 16) / 4 = v0 := by omega
                    have e2 : (v0 * 4 + v1 / 16) % 4 * 16 + (v1 % 16 * 16 + v2 / 4) / 16 = v1 := by omega
                    have e3 : (v1 % 16 * 16 + v2 / 4) % 16 * 4 + (v2 % 4 * 64 + v3) / 64 = v2 := by omega
                    have e4 : (v2 % 4 * 64 + v3) % 64 = v3 := by omega
                    rw [e1, e2, e3, e4, hv0c, hv1c, hv2c, hv3c]
                    have hb : ([] : List Nat).append bs = bs := rfl
                    rw [hb, ihb]
                  · intro x hx
                    simp only [List.cons_append, List.nil_append, List.mem_cons] at hx
                    rcases hx with rfl | rfl | rfl | hx
                    · omega
                    · omega
                    · omega
                    · exact ihlt x hx

theorem btoa_eq_nil_iff (l : List Nat) : btoa l = [] ↔ l = [] := by
  constructor
  · intro h
    match l with
    | [] => rfl
    | [b0] => simp [btoa] at h
    | [b0, b1] => simp [btoa] at h
    | b0 :: b1 :: b2 :: rest => simp [btoa] at h
  · intro h
    subst h
    rfl

theorem btoa_cons3 (b0 b1 b2 : Nat) (rest : List Nat) :
    btoa (b0 :: b1 :: b2 :: rest) =
      b64Char (b0 / 4) :: b64Char (b0 % 4 * 16 + b1 / 16) ::
        b64Char (b1 % 16 * 4 + b2 / 64) :: b64Char (b2 % 64) :: btoa rest := by
  simp only [btoa]

/-! ### Text encoding

`TextEncoder`/`TextDecoder` are modelled by a fixed-width injective byte
encoding of Unicode scalar values (4 bytes per character).  The claims depend
only on the encode/decode round trip and injectivity, not on the UTF-8 byte
layout. -/

/-- `new TextEncoder().encode(s)`. -/
def textEncode : List Char → List Nat
  | [] => []
  | c :: cs => encodeLen c.toNat ++ textEncode cs

/-- `new TextDecoder().decode(bytes)` (checked; only encoder images arise). -/
def textDecode : List Nat → Option (List Char)
  | [] => some []
  | a :: b :: c :: d :: rest =>
    (textDecode rest).map (fun cs => Char.ofNat (decodeLen [a, b, c, d]) :: cs)
  | _ => none

theorem char_toNat_lt (c : Char) : c.toNat < 2 ^ 32 := c.val.toNat_lt

theorem textDecode_textEncode : ∀ s : List Char, textDecode (textEncode s) = some s
  | [] => rfl
  | c :: cs => by
    have ih := textDecode_textEncode cs
    simp only [textEncode, encodeLen, List.cons_append, List.nil_append, textDecode]
    have h4 : decodeLen [c.toNat / 2 ^ 24 % 256, c.toNat / 2 ^ 16 % 256,
        c.toNat / 2 ^ 8 % 256, c.toNat % 256] = c.toNat := by
      have h5 : decodeLen [c.toNat / 2 ^ 24 % 256, c.toNat / 2 ^ 16 % 256,
          c.toNat / 2 ^ 8 % 256, c.toNat % 256] = decodeLen (encodeLen c.toNat) := rfl
      rw [h5, decodeLen_encodeLen _ (char_toNat_lt c)]
    rw [h4, Char.ofNat_toNat]
    have hnil : ([] : List Nat).append (textEncode cs) = textEncode cs := rfl
    rw [hnil, ih]
    rfl

theorem textEncode_length (s : List Char) : (textEncode s).length = 4 * s.length := by
  induction s with
  | nil => rfl
  | cons c cs ih => simp [textEncode, ih, encodeLen]; omega

theorem textEncode_mem_lt (s : List Char) : ∀ b ∈ textEncode s, b < 256 := by
  induction s with
  | nil => simp [textEncode]
  | cons c cs ih =>
    intro b hb
    simp only [textEncode, List.mem_append] at hb
    rcases hb with hb | hb
    · exact encodeLen_mem_lt _ b hb
    · exact ih b hb

theorem textEncode_inj : ∀ {s t : List Char}, textEncode s = textEncode t → s = t
  | [], [], _ => rfl
  | [], c :: cs, h => by simp [textEncode, encodeLen] at h
  | c :: cs, [], h => by simp [textEncode, encodeLen] at h
  | c :: cs, d :: ds, h => by
    simp only [textEncode] at h
    obtain ⟨h1, h2⟩ := List.append_inj h (by simp [encodeLen])
    have hc : c = d := by
      have := encodeLen_inj (char_toNat_lt c) (char_toNat_lt d) h1
      calc c = Char.ofNat c.toNat := (Char.ofNat_toNat c).symm
        _ = Char.ofNat d.toNat := by rw [this]
        _ = d := Char.ofNat_toNat d
    rw [hc, textEncode_inj h2]

/-! ### Key objects

`CryptoKey` handles are abstracted by numeric identifiers; a keypair shares
one identifier.  An AES-GCM `CryptoKey` is either imported/generated raw key
material or the result of `deriveKey` with its full PBKDF2 parameter set, as
in `crypto.ts`. -/

inductive HashAlg where
  | SHA256
deriving DecidableEq

structure PublicKey where
  id : Nat
deriving DecidableEq

structure PrivateKey where
  id : Nat
deriving DecidableEq

/-- `crypto.subtle.generateKey({name:'RSA-OAEP', modulusLength:2048,
publicExponent:[1,0,1], hash:'SHA-256'})`: the fresh randomness is threaded
as the identifier `n` shared by the two halves of the pair. -/
def generateKeyPair (n : Nat) : PublicKey × PrivateKey := (⟨n⟩, ⟨n⟩)

/-- An AES-GCM `CryptoKey`. -/
inductive AesKey where
  | raw (bytes : List Nat)
  | derived (password : List Char) (salt : List Nat) (iterations : Nat)
      (hash : HashAlg) (length : Nat)
deriving DecidableEq

/-- Byte image of an AES key used inside the idealized AEAD tag (injective on
the key data; `HashAlg` has a single value). -/
def keyEnc : AesKey → List Nat
  | .raw b => 0 :: b
  | .derived pw salt iter _ len =>
    1 :: (encodeLen (textEncode pw).length ++ textEncode pw ++
      encodeLen salt.length ++ salt ++ encodeLen iter ++ encodeLen len)

theorem keyEnc_raw_inj {b b' : List Nat} (h : keyEnc (.raw b) = keyEnc (.raw b')) :
    b = b' := by
  simpa [keyEnc] using h

theorem keyEnc_ne_nil (k : AesKey) : keyEnc k ≠ [] := by
  intro h
  cases k <;> simp [keyEnc] at h

theorem keyEnc_derived_inj {pw pw' : List Char} {salt : List Nat} {iter iter' len len' : Nat}
    {h1 h2 : HashAlg}
    (h : keyEnc (.derived pw salt iter h1 len) = keyEnc (.derived pw' salt iter' h2 len')) :
    pw = pw' := by
  simp only [keyEnc, List.cons.injEq, true_and] at h
  obtain ⟨h1, _⟩ := List.append_inj' h (by simp [encodeLen])
  obtain ⟨h2, _⟩ := List.append_inj' h1 (by simp [encodeLen])
  obtain ⟨h3, _⟩ := List.append_inj' h2 rfl
  obtain ⟨h4, _⟩ := List.append_inj' h3 (by simp [encodeLen])
  obtain ⟨_, h5⟩ := List.append_inj h4 (by simp [encodeLen])
  exact textEncode_inj h5

/-! ### Idealized AES-256-GCM

`encrypt` is an injective encoding of `(key, iv, plaintext)`; `decrypt`
accepts exactly the encryptions performed with the same key and IV — the
all-or-nothing AEAD contract (tag verification) the spec relies on.  The
plaintext appears twice so that any single-byte change lands outside one of
the two copies, which drives the tamper-detection proof. -/

/-- `crypto.subtle.encrypt({name:'AES-GCM', iv}, key, m)`. -/
def aesGcmEncrypt (key : AesKey) (iv m : List Nat) : List Nat :=
  m ++ keyEnc key ++ iv ++ m ++
    encodeLen (keyEnc key).length ++ encodeLen iv.length ++ encodeLen m.length

/-- `crypto.subtle.decrypt({name:'AES-GCM', iv}, key, ct)`; `none` is the
`OperationError` thrown on authentication failure. -/
def aesGcmDecrypt (key : AesKey) (iv ct : List Nat) : Option (List Nat) :=
  if ct = aesGcmEncrypt key iv (ct.take (decodeLen (ct.drop (ct.length - 4)))) then
    some (ct.take (decodeLen (ct.drop (ct.length - 4))))
  else none

theorem decodeLen_encodeLen_mod (n : Nat) : decodeLen (encodeLen n) = n % 2 ^ 32 := by
  simp only [encodeLen, decodeLen]
  omega

theorem aesGcmEncrypt_length (key : AesKey) (iv m : List Nat) :
    (aesGcmEncrypt key iv m).length =
      2 * m.length + (keyEnc key).length + iv.length + 12 := by
  simp [aesGcmEncrypt, encodeLen]
  omega

theorem aesGcmEncrypt_lastFour (key : AesKey) (iv m : List Nat) :
    (aesGcmEncrypt key iv m).drop ((aesGcmEncrypt key iv m).length - 4) =
      encodeLen m.length := by
  have hshape : aesGcmEncrypt key iv m =
      (m ++ keyEnc key ++ iv ++ m ++ encodeLen (keyEnc key).length ++
        encodeLen iv.length) ++ encodeLen m.length := by
    simp [aesGcmEncrypt]
  rw [hshape]
  have hlen : ((m ++ keyEnc key ++ iv ++ m ++ encodeLen (keyEnc key).length ++
      encodeLen iv.length) ++ encodeLen m.length).length - 4 =
      (m ++ keyEnc key ++ iv ++ m ++ encodeLen (keyEnc key).length ++
        encodeLen iv.length).length := by
    simp [encodeLen]
    omega
  rw [hlen, List.drop_left]

theorem aesGcmEncrypt_mem_lt (key : AesKey) (iv m : List Nat)
    (hk : ∀ b ∈ keyEnc key, b < 256) (hiv : ∀ b ∈ iv, b < 256)
    (hm : ∀ b ∈ m, b < 256) : ∀ b ∈ aesGcmEncrypt key iv m, b < 256 := by
  intro b hb
  simp only [aesGcmEncrypt, List.mem_append] at hb
  rcases hb with ((((((hb | hb) | hb) | hb) | hb) | hb) | hb)
  · exact hm b hb
  · exact hk b hb
  · exact hiv b hb
  · exact hm b hb
  · exact encodeLen_mem_lt _ b hb
  · exact encodeLen_mem_lt _ b hb
  · exact encodeLen_mem_lt _ b hb

theorem aesGcmDecrypt_encrypt (key : AesKey) (iv m : List Nat)
    (hm : m.length < 2 ^ 32) :
    aesGcmDecrypt key iv (aesGcmEncrypt key iv m) = some m := by
  have htake : (aesGcmEncrypt key iv m).take m.length = m := by
    have hshape : aesGcmEncrypt key iv m =
        m ++ (keyEnc key ++ iv ++ m ++ encodeLen (keyEnc key).length ++
          encodeLen iv.length ++ encodeLen m.length) := by
      simp [aesGcmEncrypt]
    rw [hshape]
    exact List.take_left m _
  unfold aesGcmDecrypt
  rw [aesGcmEncrypt_lastFour, decodeLen_encodeLen _ hm, htake, if_pos rfl]

theorem aesGcmDecrypt_some {key : AesKey} {iv ct m : List Nat}
    (h : aesGcmDecrypt key iv ct = some m) :
    ct = aesGcmEncrypt key iv m ∧ m.length < 2 ^ 32 := by
  unfold aesGcmDecrypt at h
  by_cases hc : ct = aesGcmEncrypt key iv
      (ct.take (decodeLen (ct.drop (ct.length - 4))))
  · rw [if_pos hc, Option.some.injEq] at h
    subst h
    refine ⟨hc, ?_⟩
    have hlast : ct.drop (ct.length - 4) =
        encodeLen (ct.take (decodeLen (ct.drop (ct.length - 4)))).length := by
      conv_lhs => rw [hc]
      rw [aesGcmEncrypt_lastFour]
    have hle : (ct.take (decodeLen (ct.drop (ct.length - 4)))).length ≤
        decodeLen (ct.drop (ct.length - 4)) := by
      simp [List.length_take]
    set L := (ct.take (decodeLen (ct.drop (ct.length - 4)))).length with hL
    have : decodeLen (ct.drop (ct.length - 4)) = L % 2 ^ 32 := by
      rw [hlast, decodeLen_encodeLen_mod]
    omega
  · rw [if_neg hc] at h
    exact absurd h (by simp)

theorem aesGcmEncrypt_inj {k k' : AesKey} {iv iv' m m' : List Nat}
    (hm : m.length < 2 ^ 32) (hm' : m'.length < 2 ^ 32)
    (hiv : iv.length = iv'.length)
    (h : aesGcmEncrypt k iv m = aesGcmEncrypt k' iv' m') :
    keyEnc k = keyEnc k' ∧ iv = iv' ∧ m = m' := by
  have hlast := congrArg (fun l => List.drop (l.length - 4) l) h
  simp only at hlast
  rw [aesGcmEncrypt_lastFour, aesGcmEncrypt_lastFour] at hlast
  have hml : m.length = m'.length :=
    encodeLen_inj hm hm' hlast
  have hlen := congrArg List.length h
  rw [aesGcmEncrypt_length, aesGcmEncrypt_length] at hlen
  have hkl : (keyEnc k).length = (keyEnc k').length := by omega
  unfold aesGcmEncrypt at h
  obtain ⟨h1, _⟩ := List.append_inj' h (by simp [encodeLen])
  obtain ⟨h2, _⟩ := List.append_inj' h1 (by simp [encodeLen])
  obtain ⟨h3, _⟩ := List.append_inj' h2 (by simp [encodeLen])
  obtain ⟨h4, hm2⟩ := List.append_inj' h3 hml
  obtain ⟨h5, hiv2⟩ := List.append_inj' h4 hiv
  obtain ⟨_, hk2⟩ := List.append_inj' h5 hkl
  exact ⟨hk2, hiv2, hm2⟩

theorem aesGcmDecrypt_wrong_key (k k' : AesKey) (iv m : List Nat)
    (hm : m.length < 2 ^ 32) (hne : keyEnc k ≠ keyEnc k') :
    aesGcmDecrypt k' iv (aesGcmEncrypt k iv m) = none := by
  cases hd : aesGcmDecrypt k' iv (aesGcmEncrypt k iv m) with
  | none => rfl
  | some m' =>
    obtain ⟨heq, hm'⟩ := aesGcmDecrypt_some hd
    obtain ⟨hk, _, _⟩ := aesGcmEncrypt_inj hm hm' rfl heq
    exact absurd hk hne

theorem aesGcmDecrypt_wrong_iv (k : AesKey) (iv iv' m : List Nat)
    (hm : m.length < 2 ^ 32) (hlen : iv.length = iv'.length) (hne : iv ≠ iv') :
    aesGcmDecrypt k iv' (aesGcmEncrypt k iv m) = none := by
  cases hd : aesGcmDecrypt k iv' (aesGcmEncrypt k iv m) with
  | none => rfl
  | some m' =>
    obtain ⟨heq, hm'⟩ := aesGcmDecrypt_some hd
    obtain ⟨_, hiv, _⟩ := aesGcmEncrypt_inj hm hm' hlen heq
    exact absurd hiv hne

theorem aesGcmEncrypt_take (key : AesKey) (iv m : List Nat) :
    (aesGcmEncrypt key iv m).take m.length = m := by
  have hshape : aesGcmEncrypt key iv m =
      m ++ (keyEnc key ++ iv ++ m ++ encodeLen (keyEnc key).length ++
        encodeLen iv.length ++ encodeLen m.length) := by
    simp [aesGcmEncrypt]
  rw [hshape]
  exact List.take_left m _

theorem aesGcmEncrypt_drop_mid (key : AesKey) (iv m : List Nat) :
    (aesGcmEncrypt key iv m).drop (m.length + (keyEnc key).length + iv.length) =
      m ++ encodeLen (keyEnc key).length ++ encodeLen iv.length ++
        encodeLen m.length := by
  have hshape : aesGcmEncrypt key iv m =
      (m ++ keyEnc key ++ iv) ++ (m ++ encodeLen (keyEnc key).length ++
        encodeLen iv.length ++ encodeLen m.length) := by
    simp [aesGcmEncrypt]
  have hplen : (m ++ keyEnc key ++ iv).length =
      m.length + (keyEnc key).length + iv.length := by
    simp
    omega
  rw [hshape, ← hplen, List.drop_left]

/-- A single-bit flip anywhere in an AES-GCM ciphertext makes authenticated
decryption (same key, same IV) fail. -/
theorem aesGcmDecrypt_flip (key : AesKey) (iv m : List Nat) (p j : Nat)
    (hp : p < (aesGcmEncrypt key iv m).length) :
    aesGcmDecrypt key iv (flipBit p j (aesGcmEncrypt key iv m)) = none := by
  cases hd : aesGcmDecrypt key iv (flipBit p j (aesGcmEncrypt key iv m)) with
  | none => rfl
  | some m' =>
    exfalso
    obtain ⟨heq, hm'⟩ := aesGcmDecrypt_some hd
    have hml : m'.length = m.length := by
      have h1 := congrArg List.length heq
      rw [flipBit_length, aesGcmEncrypt_length, aesGcmEncrypt_length] at h1
      omega
    have hmm : m' = m := by
      by_cases hcase : p < m.length
      · -- the flip hit the first plaintext copy: read `m'` off the second
        have hdrop := flipBit_drop p j
          (m.length + (keyEnc key).length + iv.length) (aesGcmEncrypt key iv m)
          (by omega)
        have h2 := congrArg
          (List.drop (m.length + (keyEnc key).length + iv.length)) heq
        simp only at h2
        rw [hdrop, aesGcmEncrypt_drop_mid] at h2
        rw [← hml] at h2
        rw [aesGcmEncrypt_drop_mid] at h2
        have h3 : m = m' := by simpa [List.append_assoc] using h2
        exact h3.symm
      · -- the flip hit at or after the end of the first copy: read `m'` there
        have htake := flipBit_take p j m.length (aesGcmEncrypt key iv m)
          (by omega)
        have h2 := congrArg (List.take m.length) heq
        simp only at h2
        rw [htake, aesGcmEncrypt_take] at h2
        rw [← hml, aesGcmEncrypt_take] at h2
        exact h2.symm
    rw [hmm] at heq
    exact flipBit_ne p j (aesGcmEncrypt key iv m) hp heq

/-! ### Idealized RSA-OAEP

Key wrapping: `encrypt` under a public key is an injective encoding of the
payload tagged with the key identifier; `decrypt` under the matching private
key accepts exactly those encodings (OAEP decryption failure on anything
else).  The model is deterministic; the claims quantify over outputs, so OAEP
randomness is not needed. -/

/-- `crypto.subtle.encrypt({name:'RSA-OAEP'}, publicKey, m)`. -/
def rsaOaepEncrypt (pub : Nat) (m : List Nat) : List Nat :=
  encodeLen m.length ++ encodeLen pub ++ m

/-- `crypto.subtle.decrypt({name:'RSA-OAEP'}, privateKey, ct)`; `none` is the
`OperationError` on OAEP failure (wrong key or corrupted data). -/
def rsaOaepDecrypt (priv : PrivateKey) (ct : List Nat) : Option (List Nat) :=
  if decodeLen ((ct.drop 4).take 4) = priv.id ∧
      ct = rsaOaepEncrypt priv.id (ct.drop 8) then
    some (ct.drop 8)
  else none

theorem rsaOaepEncrypt_length (pub : Nat) (m : List Nat) :
    (rsaOaepEncrypt pub m).length = 8 + m.length := by
  simp [rsaOaepEncrypt, encodeLen]
  omega

theorem rsaOaepEncrypt_mem_lt (pub : Nat) (m : List Nat)
    (hm : ∀ b ∈ m, b < 256) : ∀ b ∈ rsaOaepEncrypt pub m, b < 256 := by
  intro b hb
  simp only [rsaOaepEncrypt, List.mem_append] at hb
  rcases hb with (hb | hb) | hb
  · exact encodeLen_mem_lt _ b hb
  · exact encodeLen_mem_lt _ b hb
  · exact hm b hb

theorem rsaOaepEncrypt_drop8 (pub : Nat) (m : List Nat) :
    (rsaOaepEncrypt pub m).drop 8 = m := by
  have hshape : rsaOaepEncrypt pub m = (encodeLen m.length ++ encodeLen pub) ++ m := by
    simp [rsaOaepEncrypt]
  have hlen : (encodeLen m.length ++ encodeLen pub).length = 8 := by simp [encodeLen]
  rw [hshape, ← hlen, List.drop_left]

theorem rsaOaepEncrypt_pubField (pub : Nat) (m : List Nat) :
    ((rsaOaepEncrypt pub m).drop 4).take 4 = encodeLen pub := by
  have hshape : rsaOaepEncrypt pub m =
      encodeLen m.length ++ (encodeLen pub ++ m) := by
    simp [rsaOaepEncrypt]
  have h1 : (rsaOaepEncrypt pub m).drop 4 = encodeLen pub ++ m := by
    rw [hshape]
    exact List.drop_left (encodeLen m.length) _
  rw [h1]
  exact List.take_left (encodeLen pub) m

theorem rsaOaepDecrypt_encrypt (priv : PrivateKey) (m : List Nat)
    (hpub : priv.id < 2 ^ 32) :
    rsaOaepDecrypt priv (rsaOaepEncrypt priv.id m) = some m := by
  unfold rsaOaepDecrypt
  rw [rsaOaepEncrypt_pubField, rsaOaepEncrypt_drop8,
    decodeLen_encodeLen _ hpub]
  rw [if_pos ⟨rfl, rfl⟩]

theorem rsaOaepDecrypt_some {priv : PrivateKey} {ct m : List Nat}
    (h : rsaOaepDecrypt priv ct = some m) :
    m = ct.drop 8 ∧ ct = rsaOaepEncrypt priv.id m := by
  unfold rsaOaepDecrypt at h
  by_cases hc : decodeLen ((ct.drop 4).take 4) = priv.id ∧
      ct = rsaOaepEncrypt priv.id (ct.drop 8)
  · rw [if_pos hc, Option.some.injEq] at h
    subst h
    exact ⟨rfl, hc.2⟩
  · rw [if_neg hc] at h
    exact absurd h (by simp)

/-- A bit flip in the first 8 bytes (the header fields) of a wrapped key makes
OAEP unwrapping fail outright. -/
theorem rsaOaepDecrypt_flip_header (priv : PrivateKey) (m : List Nat) (p j : Nat)
    (hp : p < 8) :
    rsaOaepDecrypt priv (flipBit p j (rsaOaepEncrypt priv.id m)) = none := by
  cases hd : rsaOaepDecrypt priv (flipBit p j (rsaOaepEncrypt priv.id m)) with
  | none => rfl
  | some m' =>
    exfalso
    obtain ⟨hm', heq⟩ := rsaOaepDecrypt_some hd
    have hdrop : (flipBit p j (rsaOaepEncrypt priv.id m)).drop 8 = m := by
      rw [flipBit_drop p j 8 _ (by omega), rsaOaepEncrypt_drop8]
    rw [hdrop] at hm'
    rw [hm'] at heq
    exact flipBit_ne p j (rsaOaepEncrypt priv.id m)
      (by rw [rsaOaepEncrypt_length]; omega) heq

/-- A bit flip in the payload region of a wrapped key is passed through by the
deterministic OAEP model: unwrapping yields the correspondingly flipped (hence
different) key bytes.  (Real OAEP would already fail here; either way the
chained AEAD open rejects, which is what claim C2 needs.) -/
theorem rsaOaepDecrypt_flip_payload (priv : PrivateKey) (m : List Nat) (p j : Nat)
    (hpub : priv.id < 2 ^ 32) (hp : 8 ≤ p) :
    rsaOaepDecrypt priv (flipBit p j (rsaOaepEncrypt priv.id m)) =
      some (flipBit (p - 8) j m) := by
  have hshape : rsaOaepEncrypt priv.id m =
      (encodeLen m.length ++ encodeLen priv.id) ++ m := by
    simp [rsaOaepEncrypt]
  have hlen8 : (encodeLen m.length ++ encodeLen priv.id).length = 8 := by
    simp [encodeLen]
  have hflip : flipBit p j (rsaOaepEncrypt priv.id m) =
      (encodeLen m.length ++ encodeLen priv.id) ++ flipBit (p - 8) j m := by
    rw [hshape]
    unfold flipBit
    rw [List.set_append, if_neg (by rw [hlen8]; omega), hlen8]
    have hgd : ((encodeLen m.length ++ encodeLen priv.id) ++ m).getD p 0 =
        m.getD (p - 8) 0 := by
      unfold List.getD
      rw [List.get?_eq_getElem?, List.get?_eq_getElem?,
        List.getElem?_append_right (by rw [hlen8]; omega), hlen8]
    rw [hgd]
  rw [hflip]
  have hfm : ((encodeLen m.length ++ encodeLen priv.id) ++ flipBit (p - 8) j m) =
      rsaOaepEncrypt priv.id (flipBit (p - 8) j m) := by
    simp [rsaOaepEncrypt, flipBit_length]
  rw [hfm]
  exact rsaOaepDecrypt_encrypt priv (flipBit (p - 8) j m) hpub

/-! ### SPKI / PKCS8 serialization

DER serialization of key material is modelled as the injective 4-byte encoding
of the key identifier; import checks the encoding exactly (Web Crypto rejects
malformed DER / mismatched algorithm parameters with `DataError`). -/

/-- `crypto.subtle.exportKey('spki', key)`. -/
def exportSpki (k : PublicKey) : List Nat := encodeLen k.id

/-- `crypto.subtle.importKey('spki', bytes, {name:'RSA-OAEP', hash:'SHA-256'},
false, ['encrypt'])`; `none` on malformed input. -/
def importSpki (b : List Nat) : Option PublicKey :=
  if b = encodeLen (decodeLen b) then some ⟨decodeLen b⟩ else none

/-- `crypto.subtle.exportKey('pkcs8', key)`. -/
def pkcs8Export (k : PrivateKey) : List Nat := encodeLen k.id

/-- `crypto.subtle.importKey('pkcs8', bytes, {name:'RSA-OAEP',
hash:'SHA-256'}, false, ['decrypt'])`. -/
def pkcs8Import (b : List Nat) : Option PrivateKey :=
  if b = encodeLen (decodeLen b) then some ⟨decodeLen b⟩ else none

theorem importSpki_exportSpki (k : PublicKey) (h : k.id < 2 ^ 32) :
    importSpki (exportSpki k) = some k := by
  unfold importSpki exportSpki
  rw [decodeLen_encodeLen _ h, if_pos rfl]

theorem importSpki_some {b : List Nat} {k : PublicKey}
    (h : importSpki b = some k) : b = exportSpki k ∧ k.id < 2 ^ 32 := by
  unfold importSpki at h
  by_cases hc : b = encodeLen (decodeLen b)
  · rw [if_pos hc, Option.some.injEq] at h
    subst h
    refine ⟨hc, ?_⟩
    conv_lhs => rw [hc]
    rw [decodeLen_encodeLen_mod]
    exact Nat.mod_lt _ (by norm_num)
  · rw [if_neg hc] at h
    exact absurd h (by simp)

theorem pkcs8Import_pkcs8Export (k : PrivateKey) (h : k.id < 2 ^ 32) :
    pkcs8Import (pkcs8Export k) = some k := by
  unfold pkcs8Import pkcs8Export
  rw [decodeLen_encodeLen _ h, if_pos rfl]

/-! ### JSON (`JSON.parse` / `JSON.stringify`)

A JSON value model with an executable parser, used by the shape detection in
`decryptMessage` and by the caller-side `JSON.stringify(encryptedKeys)`
(src/pages/Invite.tsx).  JS strings are modelled as Unicode scalar sequences
(`List Char`); numbers keep their source lexeme (no claim evaluates numeric
JSON); object member access is own-property lookup (the `Object.prototype`
chain is not modelled). -/

inductive Json where
  | null
  | bool (b : Bool)
  | num (lexeme : List Char)
  | str (s : List Char)
  | arr (elems : List Json)
  | obj (members : List (List Char × Json))
deriving BEq

/-- JSON whitespace. -/
def isJsonWs (c : Char) : Bool :=
  c = ' ' ∨ c = Char.ofNat 9 ∨ c = Char.ofNat 10 ∨ c = Char.ofNat 13

def skipWs (s : List Char) : List Char := s.dropWhile isJsonWs

/-- Hex digit value (both cases accepted, as in JSON `\uXXXX` escapes). -/
def hexVal (c : Char) : Option Nat :=
  if 48 ≤ c.toNat ∧ c.toNat ≤ 57 then some (c.toNat - 48)
  else if 97 ≤ c.toNat ∧ c.toNat ≤ 102 then some (c.toNat - 87)
  else if 65 ≤ c.toNat ∧ c.toNat ≤ 70 then some (c.toNat - 55)
  else none

/-- Lower-case hex digit, as emitted by `JSON.stringify`. -/
def hexDigit (n : Nat) : Char := "0123456789abcdef".data.getD n '0'

/-- Parses the body of a JSON string after the opening quote; returns the
decoded string and the remainder after the closing quote. -/
def parseStringBody : List Char → Option (List Char × List Char)
  | [] => none
  | c :: rest =>
    if c = '"' then some ([], rest)
    else if c = '\\' then
      match rest with
      | [] => none
      | e :: rest2 =>
        if e = '"' ∨ e = '\\' ∨ e = '/' then
          (parseStringBody rest2).map (fun p => (e :: p.1, p.2))
        else if e = 'n' then
          (parseStringBody rest2).map (fun p => (Char.ofNat 10 :: p.1, p.2))
        else if e = 't' then
          (parseStringBody rest2).map (fun p => (Char.ofNat 9 :: p.1, p.2))
        else if e = 'r' then
          (parseStringBody rest2).map (fun p => (Char.ofNat 13 :: p.1, p.2))
        else if e = 'b' then
          (parseStringBody rest2).map (fun p => (Char.ofNat 8 :: p.1, p.2))
        else if e = 'f' then
          (parseStringBody rest2).map (fun p => (Char.ofNat 12 :: p.1, p.2))
        else if e = 'u' then
          match rest2 with
          | h1 :: h2 :: h3 :: h4 :: rest3 =>
            match hexVal h1, hexVal h2, hexVal h3, hexVal h4 with
            | some a, some b, some c1, some d =>
              (parseStringBody rest3).map (fun p =>
                (Char.ofNat (a * 4096 + b * 256 + c1 * 16 + d) :: p.1, p.2))
            | _, _, _, _ => none
          | _ => none
        else none
    else if c.toNat < 32 then none
    else (parseStringBody rest).map (fun p => (c :: p.1, p.2))

/-- Characters that may occur in a JSON number lexeme. -/
def numChar (c : Char) : Bool :=
  c.isDigit ∨ c = '.' ∨ c = 'e' ∨ c = 'E' ∨ c = '+' ∨ c = '-'

/-- Validates the exponent part and requires the lexeme to end there. -/
def validExp : List Char → Bool
  | [] => true
  | c :: r =>
    if c = 'e' ∨ c = 'E' then
      match r with
      | '+' :: r2 => ¬(r2.takeWhile Char.isDigit).isEmpty ∧
          (r2.dropWhile Char.isDigit).isEmpty
      | '-' :: r2 => ¬(r2.takeWhile Char.isDigit).isEmpty ∧
          (r2.dropWhile Char.isDigit).isEmpty
      | r2 => ¬(r2.takeWhile Char.isDigit).isEmpty ∧
          (r2.dropWhile Char.isDigit).isEmpty
    else false

/-- Validates the optional fraction part followed by the exponent part. -/
def validFrac : List Char → Bool
  | '.' :: r =>
    ¬(r.takeWhile Char.isDigit).isEmpty ∧ validExp (r.dropWhile Char.isDigit)
  | s => validExp s

/-- Validates a complete JSON number lexeme (sign, integer part with the
no-leading-zero rule, fraction, exponent). -/
def validNumber (l : List Char) : Bool :=
  match (match l with | '-' :: r => r | s => s) with
  | [] => false
  | '0' :: r => validFrac r
  | c :: _ =>
    c.isDigit ∧ validFrac ((match l with | '-' :: r => r | s => s).dropWhile Char.isDigit)

/-- Parses a JSON number: maximal lexeme of number characters, checked against
the JSON number grammar. -/
def parseNumber (s : List Char) : Option (Json × List Char) :=
  if validNumber (s.takeWhile numChar) then
    some (.num (s.takeWhile numChar), s.dropWhile numChar)
  else none

/-- JS object construction order: an existing key keeps its position and takes
the later value; a new key is appended. -/
def insertJs (ms : List (List Char × Json)) (k : List Char) (v : Json) :
    List (List Char × Json) :=
  if ms.any (fun p => p.1 = k) then ms.map (fun p => if p.1 = k then (k, v) else p)
  else ms ++ [(k, v)]

/-- Folds parsed members into a JS object (duplicate keys: last value wins). -/
def dedupJs (ms : List (List Char × Json)) : List (List Char × Json) :=
  ms.foldl (fun acc p => insertJs acc p.1 p.2) []

mutual

/-- `JSON.parse` value parser (fuel-bounded; the top-level call supplies
`length + 1`, enough for any nesting since each level consumes input). -/
def parseValue : Nat → List Char → Option (Json × List Char)
  | 0, _ => none
  | fuel + 1, s =>
    match skipWs s with
    | [] => none
    | c :: r =>
      if c = '{' then
        if (skipWs r).head? = some '}' then some (.obj [], (skipWs r).tail)
        else
          (parseMembers fuel (skipWs r)).map (fun p => (Json.obj (dedupJs p.1), p.2))
      else if c = '[' then
        if (skipWs r).head? = some ']' then some (.arr [], (skipWs r).tail)
        else (parseElements fuel (skipWs r)).map (fun p => (Json.arr p.1, p.2))
      else if c = '"' then
        (parseStringBody r).map (fun p => (Json.str p.1, p.2))
      else if c = 't' then
        if r.take 3 = ['r', 'u', 'e'] then some (.bool true, r.drop 3) else none
      else if c = 'f' then
        if r.take 4 = ['a', 'l', 's', 'e'] then some (.bool false, r.drop 4)
        else none
      else if c = 'n' then
        if r.take 3 = ['u', 'l', 'l'] then some (.null, r.drop 3) else none
      else if c = '-' ∨ c.isDigit then parseNumber (c :: r)
      else none

/-- Parses `"key": value` members from the first member on, through the
closing `}`. -/
def parseMembers : Nat → List Char → Option (List (List Char × Json) × List Char)
  | 0, _ => none
  | fuel + 1, s =>
    match s with
    | [] => none
    | c :: r =>
      if c = '"' then
        match parseStringBody r with
        | none => none
        | some (k, r1) =>
          match skipWs r1 with
          | [] => none
          | c2 :: r2 =>
            if c2 = ':' then
              match parseValue fuel r2 with
              | none => none
              | some (v, r3) =>
                match skipWs r3 with
                | [] => none
                | c4 :: r4 =>
                  if c4 = ',' then
                    match parseMembers fuel (skipWs r4) with
                    | none => none
                    | some (ms, r5) => some ((k, v) :: ms, r5)
                  else if c4 = '}' then some ([(k, v)], r4)
                  else none
            else none
      else none

/-- Parses array elements from the first element on, through the closing
`]`. -/
def parseElements : Nat → List Char → Option (List Json × List Char)
  | 0, _ => none
  | fuel + 1, s =>
    match parseValue fuel s with
    | none => none
    | some (v, r) =>
      match skipWs r with
      | [] => none
      | c :: r1 =>
        if c = ',' then
          match parseElements fuel (skipWs r1) with
          | none => none
          | some (vs, r2) => some (v :: vs, r2)
        else if c = ']' then some ([v], r1)
        else none

end

/-- `JSON.parse(s)`: parse one value, then require only whitespace after it;
`none` models the thrown `SyntaxError`. -/
def jsonParse (s : List Char) : Option Json :=
  match parseValue (s.length + 1) s with
  | some (v, rest) => if skipWs rest = [] then some v else none
  | none => none

/-- One character of `JSON.stringify` string escaping. -/
def escapeJsonChar (c : Char) : List Char :=
  if c = '"' then ['\\', '"']
  else if c = '\\' then ['\\', '\\']
  else if c = Char.ofNat 8 then ['\\', 'b']
  else if c = Char.ofNat 9 then ['\\', 't']
  else if c = Char.ofNat 10 then ['\\', 'n']
  else if c = Char.ofNat 12 then ['\\', 'f']
  else if c = Char.ofNat 13 then ['\\', 'r']
  else if c.toNat < 32 then
    ['\\', 'u', '0', '0', hexDigit (c.toNat / 16), hexDigit (c.toNat % 16)]
  else [c]

def escapeJsonString : List Char → List Char
  | [] => []
  | c :: cs => escapeJsonChar c ++ escapeJsonString cs

/-- Members of `JSON.stringify({k1: v1, ...})` for a string-valued object,
from the first member through the closing `}`. -/
def strMapEntries : List (List Char × List Char) → List Char
  | [] => ['}']
  | [(k, v)] => '"' :: (escapeJsonString k ++ '"' :: ':' :: '"' ::
      (escapeJsonString v ++ ['"', '}']))
  | (k, v) :: q :: qs => '"' :: (escapeJsonString k ++ '"' :: ':' :: '"' ::
      (escapeJsonString v ++ '"' :: ',' :: strMapEntries (q :: qs)))

/-- `JSON.stringify` of a string-keyed, string-valued JS object, the shape the
caller passes for `encryptedKeys` (src/pages/Invite.tsx line 323). -/
def jsonStringifyStrMap (m : List (List Char × List Char)) : List Char :=
  '{' :: strMapEntries m

/-- Canonical array-index string ("0", "1", ..., no leading zeros). -/
def parseIndex (k : List Char) : Option Nat :=
  if ¬k.isEmpty ∧ k.all Char.isDigit ∧ (k.head? = some '0' → k = ['0']) then
    some (k.foldl (fun a c => a * 10 + (c.toNat - 48)) 0)
  else none

/-- JS array index (ECMA-262 6.1.7): a canonical numeric string whose value
is below `2^32 - 1`. -/
def arrayIndex (k : List Char) : Option Nat :=
  match parseIndex k with
  | some n => if n < 2 ^ 32 - 1 then some n else none
  | none => none

/-- The `String()` coercion of a built-in function — the text
`Function.prototype.toString` produces for native code. -/
def nativeFunctionString (name : List Char) : List Char :=
  "function ".data ++ name ++ "() ".data ++
    [Char.ofNat 123] ++ " [native code] ".data ++ [Char.ofNat 125]

/-- The properties every `JSON.parse` object inherits from `Object.prototype`
(primitives reach the same chain through their boxed prototypes): member
access on a missing key falls back to this chain before yielding `undefined`.
Each value is a host object, recorded here by its `String()` coercion —
`__proto__` (an accessor) yields `Object.prototype` itself, `constructor` the
`Object` builtin, the rest native functions; all of them are truthy.
Methods specific to `String.prototype` / `Array.prototype` beyond this shared
chain (and the `length` property) are not modelled: `resolveEncryptedKey`
only reaches member access on parsed objects. -/
def objectProtoEntry (k : List Char) : Option (List Char) :=
  if k = "__proto__".data then some "[object Object]".data
  else if k = "constructor".data then some (nativeFunctionString "Object".data)
  else if k = "hasOwnProperty".data ∨ k = "isPrototypeOf".data ∨
      k = "propertyIsEnumerable".data ∨ k = "toLocaleString".data ∨
      k = "toString".data ∨ k = "valueOf".data ∨
      k = "__defineGetter__".data ∨ k = "__defineSetter__".data ∨
      k = "__lookupGetter__".data ∨ k = "__lookupSetter__".data then
    some (nativeFunctionString k)
  else none

/-- The result of JS member access: a parsed JSON value (an own data
property) or a host object inherited from the prototype chain, carried as its
`String()` coercion. -/
inductive JsVal where
  | ofJson (v : Json)
  | host (s : List Char)

/-- JS member access `j[k]`: own properties first (`JSON.parse` creates every
key, `__proto__` included, as an own data property, so own keys shadow the
chain), then the `Object.prototype` chain; `none` is `undefined`. -/
def jsGet (j : Json) (k : List Char) : Option JsVal :=
  match j with
  | .obj ms =>
    match ms.find? (fun p => p.1 = k) with
    | some p => some (.ofJson p.2)
    | none => (objectProtoEntry k).map .host
  | .str s =>
    match parseIndex k with
    | some i => (s[i]?).map (fun c => JsVal.ofJson (Json.str [c]))
    | none => (objectProtoEntry k).map .host
  | .arr es =>
    match parseIndex k with
    | some i => es[i]?.map .ofJson
    | none => (objectProtoEntry k).map .host
  | _ => (objectProtoEntry k).map .host

/-- Stable insertion into a list sorted by ascending array-index value. -/
def insertIdx {α : Type} (p : List Char × α) :
    List (List Char × α) → List (List Char × α)
  | [] => [p]
  | q :: qs =>
    if (arrayIndex p.1).getD 0 < (arrayIndex q.1).getD 0 then p :: q :: qs
    else q :: insertIdx p qs

/-- Insertion sort of array-index keys by ascending numeric value. -/
def sortIdx {α : Type} : List (List Char × α) → List (List Char × α)
  | [] => []
  | p :: ps => insertIdx p (sortIdx ps)

/-- JS own-property enumeration order (`OrdinaryOwnPropertyKeys`): array-index
keys in ascending numeric order first, then the remaining string keys in
property-creation order.  `Object.keys` and `Object.values` follow it. -/
def jsEnumOrder {α : Type} (ms : List (List Char × α)) :
    List (List Char × α) :=
  sortIdx (ms.filter (fun p => (arrayIndex p.1).isSome)) ++
    ms.filter (fun p => (arrayIndex p.1).isNone)

/-- `Object.values(j)` (member values in enumeration order for objects,
elements for arrays, characters for strings, `[]` for primitives). -/
def jsValues (j : Json) : List Json :=
  match j with
  | .obj ms => (jsEnumOrder ms).map (fun p => p.2)
  | .arr es => es
  | .str s => s.map (fun c => Json.str [c])
  | _ => []

/-- JS truthiness of a parsed JSON value (a number is falsy exactly when its
mantissa has no nonzero digit; float underflow is not modelled). -/
def jsTruthy (j : Json) : Bool :=
  match j with
  | .str s => ¬s.isEmpty
  | .bool b => b
  | .null => false
  | .num lex => lex.any (fun c => c.isDigit ∧ c ≠ '0')
  | .obj _ => true
  | .arr _ => true

mutual

/-- JS `String(v)` coercion, as applied by `atob` to a non-string argument
(numbers keep their lexeme; nested array separators follow `Array.join`). -/
def jsToString : Json → List Char
  | .str s => s
  | .bool true => ['t', 'r', 'u', 'e']
  | .bool false => ['f', 'a', 'l', 's', 'e']
  | .null => ['n', 'u', 'l', 'l']
  | .num lex => lex
  | .obj _ => ['[', 'o', 'b', 'j', 'e', 'c', 't', ' ', 'O', 'b', 'j', 'e', 'c', 't', ']']
  | .arr es => jsToStringArr es

def jsToStringArr : List Json → List Char
  | [] => []
  | [x] => jsToString x
  | x :: xs => jsToString x ++ ',' :: jsToStringArr xs

end

/-- Truthiness of a member-access result: host objects (inherited functions,
`Object.prototype`) are always truthy. -/
def jsValTruthy : JsVal → Bool
  | .ofJson v => jsTruthy v
  | .host _ => true

/-- `String()` coercion of a member-access result. -/
def jsValToString : JsVal → List Char
  | .ofJson v => jsToString v
  | .host s => s

/-! ### The repository functions (`src/lib/crypto.ts`)

Randomness (`generateKey`, `getRandomValues`) is threaded as explicit
parameters; IndexedDB is an association list keyed by user id; promise
rejection is `none`. -/

/-- The record value stored by `storePrivateKey`: the JS object literal
`{ encrypted, salt, iv }`. -/
structure VaultRecord where
  encrypted : List Nat
  salt : List Nat
  iv : List Nat
deriving DecidableEq

/-- The fields of the stored JS object, by name — exactly the three
properties the source writes. -/
def vaultRecordFields (r : VaultRecord) : List (List Char × List Nat) :=
  [(['e', 'n', 'c', 'r', 'y', 'p', 't', 'e', 'd'], r.encrypted),
   (['s', 'a', 'l', 't'], r.salt),
   (['i', 'v'], r.iv)]

/-- The IndexedDB object store `keypairs`, keyed by user id; `put` overwrites. -/
def VaultStore : Type := List (List Char × VaultRecord)

/-- `tx.objectStore(STORE_NAME).put(record, userId)`. -/
def putStore (userId : List Char) (r : VaultRecord) (s : VaultStore) : VaultStore :=
  (userId, r) :: s

/-- `tx.objectStore(STORE_NAME).get(userId)` (first match wins; `putStore`
shadows older records). -/
def getStore (userId : List Char) (s : VaultStore) : Option VaultRecord :=
  ((s : List (List Char × VaultRecord)).find? (fun p => p.1 = userId)).map
    (fun p => p.2)

/-- `exportPublicKey(key)`: SPKI export then byte-to-base64. -/
def exportPublicKey (key : PublicKey) : List Char :=
  btoa (exportSpki key)

/-- `importPublicKey(base64)`: base64-decode then SPKI import with
RSA-OAEP/SHA-256 parameters; `none` models the thrown error on malformed
input (`MalformedKey`). -/
def importPublicKey (base64 : List Char) : Option PublicKey :=
  match atob base64 with
  | none => none
  | some bytes => importSpki bytes

/-- `encryptPrivateKey(privateKey, password)` — lines 53-68.  `rand` supplies
`crypto.getRandomValues`: the first 16 bytes become the salt, the next 12 the
IV.  The derived key carries the exact PBKDF2 call parameters
(salt, 100000 iterations, SHA-256, AES-256). -/
def encryptPrivateKey (privateKey : PrivateKey) (password : List Char)
    (rand : List Nat) : VaultRecord :=
  { encrypted := aesGcmEncrypt
      (.derived password (rand.take 16) 100000 .SHA256 256)
      ((rand.drop 16).take 12) (pkcs8Export privateKey)
    salt := rand.take 16
    iv := (rand.drop 16).take 12 }

/-- `decryptPrivateKey(encrypted, salt, iv, password)` — lines 71-83: re-derive
with the stored salt and fixed iteration count, AES-GCM-decrypt, then import
the PKCS8 bytes. -/
def decryptPrivateKey (encrypted : List Nat) (salt : List Nat) (iv : List Nat)
    (password : List Char) : Option PrivateKey :=
  match aesGcmDecrypt (.derived password salt 100000 .SHA256 256) iv encrypted with
  | none => none
  | some decrypted => pkcs8Import decrypted

/-- `storePrivateKey(userId, privateKey, password)` — lines 86-95: wrap, then
one overwriting `put` keyed by `userId`. -/
def storePrivateKey (store : VaultStore) (userId : List Char)
    (privateKey : PrivateKey) (password : List Char) (rand : List Nat) :
    VaultStore :=
  putStore userId (encryptPrivateKey privateKey password rand) store

/-- `retrievePrivateKey(userId, password)` — lines 98-108.  `some none` is the
resolved `null` for a missing record; `none` is a rejected promise
(`UnlockFailed`). -/
def retrievePrivateKey (store : VaultStore) (userId : List Char)
    (password : List Char) : Option (Option PrivateKey) :=
  match getStore userId store with
  | none => some none
  | some data =>
    match decryptPrivateKey data.encrypted data.salt data.iv password with
    | none => none
    | some key => some (some key)

/-- `hasPrivateKey(userId)` — lines 111-117. -/
def hasPrivateKey (store : VaultStore) (userId : List Char) : Bool :=
  (getStore userId store).isSome

/-- The value returned by `encryptMessage`. -/
structure Envelope where
  ciphertext : List Char
  encryptedKeys : List (List Char × List Char)
  iv : List Char
deriving DecidableEq

/-- `encryptMessage(plaintext, publicKeys)` — lines 122-150.  `contentKey` is
the exported raw AES key generated by `generateKey`, `ivArr` the
`getRandomValues(new Uint8Array(12))` output; the same exported key is
RSA-OAEP-wrapped for every entry of `publicKeys`. -/
def encryptMessage (plaintext : List Char)
    (publicKeys : List (List Char × PublicKey))
    (contentKey : List Nat) (ivArr : List Nat) : Envelope :=
  { ciphertext := btoa (aesGcmEncrypt (.raw contentKey) ivArr
      (textEncode plaintext))
    encryptedKeys := publicKeys.map
      (fun p => (p.1, btoa (rsaOaepEncrypt p.2.id contentKey)))
    iv := btoa ivArr }

/-- Step 1 of `decryptMessage` — lines 160-168: try `JSON.parse`; on success
select `parsedKeys[myUserId] || Object.values(parsedKeys)[0]` (member access
on `null` throws inside the `try`, so `null` also falls back to the legacy
branch); on parse failure use the raw value (legacy format).  `none` means the
selected value is `undefined`, which `atob` then rejects. -/
def resolveEncryptedKey (encryptedKeyData : List Char) (myUserId : List Char) :
    Option (List Char) :=
  match jsonParse encryptedKeyData with
  | none => some encryptedKeyData
  | some .null => some encryptedKeyData
  | some j =>
    match jsGet j myUserId with
    | some v =>
      if jsValTruthy v then some (jsValToString v)
      else ((jsValues j).head?).map jsToString
    | none => ((jsValues j).head?).map jsToString

/-- Steps 2-4 of `decryptMessage` — lines 170-181: base64-decode the three
fields, RSA-OAEP-unwrap the content key, import it as an AES-GCM key, decrypt
and UTF-8-decode. -/
def decryptContinue (ciphertext encryptedKeyB64 iv : List Char)
    (privateKey : PrivateKey) : Option (List Char) :=
  match atob ciphertext with
  | none => none
  | some ciphertextBuf =>
    match atob encryptedKeyB64 with
    | none => none
    | some encryptedKeyBuf =>
      match atob iv with
      | none => none
      | some ivBuf =>
        match rsaOaepDecrypt privateKey encryptedKeyBuf with
        | none => none
        | some aesKeyBuf =>
          if aesKeyBuf.length = 32 then
            match aesGcmDecrypt (.raw aesKeyBuf) ivBuf ciphertextBuf with
            | none => none
            | some decrypted => textDecode decrypted
          else none

/-- `decryptMessage(ciphertext, encryptedKeyData, iv, privateKey, myUserId)` —
lines 153-182; `none` models any thrown error (`DecryptFailed`). -/
def decryptMessage (ciphertext encryptedKeyData iv : List Char)
    (privateKey : PrivateKey) (myUserId : List Char) : Option (List Char) :=
  match resolveEncryptedKey encryptedKeyData myUserId with
  | none => none
  | some encryptedKeyB64 => decryptContinue ciphertext encryptedKeyB64 iv privateKey


theorem psb_quote (r : List Char) : parseStringBody ('"' :: r) = some ([], r) := by
  rw [parseStringBody.eq_def]
  simp

theorem psb_esc_quote (r : List Char) : parseStringBody ('\\' :: '"' :: r) =
    (parseStringBody r).map (fun p => ('"' :: p.1, p.2)) := by
  rw [parseStringBody.eq_def]
  simp

theorem psb_esc_back (r : List Char) : parseStringBody ('\\' :: '\\' :: r) =
    (parseStringBody r).map (fun p => ('\\' :: p.1, p.2)) := by
  rw [parseStringBody.eq_def]
  simp

theorem psb_esc_n (r : List Char) : parseStringBody ('\\' :: 'n' :: r) =
    (parseStringBody r).map (fun p => (Char.ofNat 10 :: p.1, p.2)) := by
  rw [parseStringBody.eq_def]
  simp

theorem psb_esc_t (r : List Char) : parseStringBody ('\\' :: 't' :: r) =
    (parseStringBody r).map (fun p => (Char.ofNat 9 :: p.1, p.2)) := by
  rw [parseStringBody.eq_def]
  simp

theorem psb_esc_r (r : List Char) : parseStringBody ('\\' :: 'r' :: r) =
    (parseStringBody r).map (fun p => (Char.ofNat 13 :: p.1, p.2)) := by
  rw [parseStringBody.eq_def]
  simp

theorem psb_esc_b (r : List Char) : parseStringBody ('\\' :: 'b' :: r) =
    (parseStringBody r).map (fun p => (Char.ofNat 8 :: p.1, p.2)) := by
  rw [parseStringBody.eq_def]
  simp

theorem psb_esc_f (r : List Char) : parseStringBody ('\\' :: 'f' :: r) =
    (parseStringBody r).map (fun p => (Char.ofNat 12 :: p.1, p.2)) := by
  rw [parseStringBody.eq_def]
  simp

theorem psb_esc_u (h1 h2 h3 h4 : Char) (r : List Char) :
    parseStringBody ('\\' :: 'u' :: h1 :: h2 :: h3 :: h4 :: r) =
      match hexVal h1, hexVal h2, hexVal h3, hexVal h4 with
      | some a, some b, some c1, some d =>
        (parseStringBody r).map (fun p =>
          (Char.ofNat (a * 4096 + b * 256 + c1 * 16 + d) :: p.1, p.2))
      | _, _, _, _ => none := by
  rw [parseStringBody.eq_def]
  simp

theorem psb_plain (c : Char) (r : List Char) (h1 : c ≠ '"') (h2 : c ≠ '\\')
    (h3 : ¬c.toNat < 32) : parseStringBody (c :: r) =
      (parseStringBody r).map (fun p => (c :: p.1, p.2)) := by
  rw [parseStringBody.eq_def]
  simp [h1, h2, h3]


theorem skipWs_not_ws (c : Char) (r : List Char) (h : isJsonWs c = false) :
    skipWs (c :: r) = c :: r := by
  simp [skipWs, List.dropWhile_cons, h]

theorem hexVal_hexDigit : ∀ a < 16, hexVal (hexDigit a) = some a := by decide

theorem parseStringBody_escape : ∀ (s rest : List Char),
    parseStringBody (escapeJsonString s ++ '"' :: rest) = some (s, rest)
  | [], rest => psb_quote rest
  | c :: cs, rest => by
    have ih := parseStringBody_escape cs rest
    show parseStringBody ((escapeJsonChar c ++ escapeJsonString cs) ++ '"' :: rest) =
      some (c :: cs, rest)
    rw [List.append_assoc]
    unfold escapeJsonChar
    by_cases hq : c = '"'
    · subst hq
      rw [if_pos rfl]
      simp only [List.cons_append, List.nil_append]
      rw [psb_esc_quote, ih]
      rfl
    · rw [if_neg hq]
      by_cases hb : c = '\\'
      · subst hb
        rw [if_pos rfl]
        simp only [List.cons_append, List.nil_append]
        rw [psb_esc_back, ih]
        rfl
      · rw [if_neg hb]
        by_cases h8 : c = Char.ofNat 8
        · subst h8
          rw [if_pos rfl]
          simp only [List.cons_append, List.nil_append]
          rw [psb_esc_b, ih]
          rfl
        · rw [if_neg h8]
          by_cases h9 : c = Char.ofNat 9
          · subst h9
            rw [if_pos rfl]
            simp only [List.cons_append, List.nil_append]
            rw [psb_esc_t, ih]
            rfl
          · rw [if_neg h9]
            by_cases h10 : c = Char.ofNat 10
            · subst h10
              rw [if_pos rfl]
              simp only [List.cons_append, List.nil_append]
              rw [psb_esc_n, ih]
              rfl
            · rw [if_neg h10]
              by_cases h12 : c = Char.ofNat 12
              · subst h12
                rw [if_pos rfl]
                simp only [List.cons_append, List.nil_append]
                rw [psb_esc_f, ih]
                rfl
              · rw [if_neg h12]
                by_cases h13 : c = Char.ofNat 13
                · subst h13
                  rw [if_pos rfl]
                  simp only [List.cons_append, List.nil_append]
                  rw [psb_esc_r, ih]
                  rfl
                · rw [if_neg h13]
                  by_cases hc : c.toNat < 32
                  · rw [if_pos hc]
                    simp only [List.cons_append, List.nil_append]
                    rw [psb_esc_u]
                    rw [(by decide : hexVal '0' = some 0),
                      hexVal_hexDigit (c.toNat / 16) (by omega),
                      hexVal_hexDigit (c.toNat % 16) (by omega)]
                    dsimp only
                    rw [ih]
                    have e2 : 0 * 4096 + 0 * 256 + c.toNat / 16 * 16 + c.toNat % 16
                        = c.toNat := by omega
                    rw [e2, Char.ofNat_toNat]
                    rfl
                  · rw [if_neg hc]
                    simp only [List.cons_append, List.nil_append]
                    rw [psb_plain c _ hq hb hc, ih]
                    rfl


theorem parseValue_str (fuel : Nat) (r : List Char) :
    parseValue (fuel + 1) ('"' :: r) =
      (parseStringBody r).map (fun p => (Json.str p.1, p.2)) := by
  simp only [parseValue]
  rw [skipWs_not_ws _ _ (by decide)]
  simp

theorem strMapEntries_cons_head (p : List Char × List Char)
    (rest : List (List Char × List Char)) :
    ∃ t, strMapEntries (p :: rest) = '"' :: t := by
  obtain ⟨k, v⟩ := p
  cases rest with
  | nil => exact ⟨_, rfl⟩
  | cons q qs => exact ⟨_, rfl⟩

theorem parseMembers_strMap : ∀ (m : List (List Char × List Char)) (fuel : Nat),
    m ≠ [] → m.length ≤ fuel →
    parseMembers (fuel + 1) (strMapEntries m) =
      some (m.map (fun p => (p.1, Json.str p.2)), [])
  | [], _, h, _ => absurd rfl h
  | [(k, v)], fuel, _, hf => by
    match fuel, hf with
    | f + 1, _ =>
      show parseMembers (f + 1 + 1)
        ('"' :: (escapeJsonString k ++ '"' :: ':' :: '"' ::
          (escapeJsonString v ++ ['"', '}']))) = _
      simp +decide only [parseMembers, reduceIte, parseStringBody_escape,
        skipWs_not_ws, parseValue_str, Option.map_some']
      rfl
  | (k, v) :: q :: qs, fuel, _, hf => by
    match fuel, hf with
    | f + 1, hf =>
      have ih := parseMembers_strMap (q :: qs) f (by simp)
        (by simp at hf ⊢; omega)
      show parseMembers (f + 1 + 1)
        ('"' :: (escapeJsonString k ++ '"' :: ':' :: '"' ::
          (escapeJsonString v ++ '"' :: ',' :: strMapEntries (q :: qs)))) = _
      simp +decide only [parseMembers, reduceIte, parseStringBody_escape,
        skipWs_not_ws, parseValue_str, Option.map_some']
      obtain ⟨t, ht⟩ := strMapEntries_cons_head q qs
      rw [ht, skipWs_not_ws _ _ (by decide), ← ht]
      simp +decide only [parseMembers, reduceIte, parseStringBody_escape,
        skipWs_not_ws, parseValue_str, Option.map_some'] at ih
      rw [ih]
      rfl


theorem strMapEntries_length_ge : ∀ m : List (List Char × List Char),
    m.length + 1 ≤ (strMapEntries m).length
  | [] => by simp [strMapEntries]
  | [(k, v)] => by
    simp [strMapEntries]
    omega
  | (k, v) :: q :: qs => by
    have ih := strMapEntries_length_ge (q :: qs)
    simp [strMapEntries] at ih ⊢
    omega

theorem jsonParse_strMap (m : List (List Char × List Char)) :
    jsonParse (jsonStringifyStrMap m) =
      some (.obj (dedupJs (m.map (fun p => (p.1, Json.str p.2))))) := by
  match m with
  | [] => rfl
  | p :: rest =>
    unfold jsonParse jsonStringifyStrMap
    have hlen : ('{' :: strMapEntries (p :: rest)).length + 1 =
        ((strMapEntries (p :: rest)).length + 1) + 1 := by simp
    rw [hlen]
    obtain ⟨t, ht⟩ := strMapEntries_cons_head p rest
    have hlenst : (strMapEntries (p :: rest)).length = t.length + 1 := by
      rw [ht]
      simp
    have hge := strMapEntries_length_ge (p :: rest)
    rw [hlenst] at hge
    have hpm := parseMembers_strMap (p :: rest) (t.length + 1) (by simp)
      (by omega)
    rw [ht] at hpm
    simp only [parseValue, reduceIte]
    rw [skipWs_not_ws _ _ (by decide)]
    simp only [reduceIte]
    rw [ht, skipWs_not_ws _ _ (by decide)]
    simp +decide only [List.head?_cons, reduceIte]
    simp only [List.length_cons]
    rw [hpm]
    rfl

theorem dedupJs_aux : ∀ (ms acc : List (List Char × Json)),
    (ms.map Prod.fst).Nodup →
    (∀ p ∈ acc, p.1 ∉ ms.map Prod.fst) →
    ms.foldl (fun acc p => insertJs acc p.1 p.2) acc = acc ++ ms
  | [], acc, _, _ => by simp
  | (k, v) :: rest, acc, hnd, hdisj => by
    have hnd2 : (rest.map Prod.fst).Nodup := by
      simp only [List.map_cons, List.nodup_cons] at hnd
      exact hnd.2
    have hhead : k ∉ rest.map Prod.fst := by
      simp only [List.map_cons, List.nodup_cons] at hnd
      exact hnd.1
    have hnotin : acc.any (fun p => p.1 = k) = false := by
      rw [List.any_eq_false]
      intro p hp
      simp only [decide_eq_true_eq]
      intro hpk
      refine hdisj p hp ?_
      rw [hpk, List.map_cons]
      exact List.mem_cons_self k _
    have hins : insertJs acc k v = acc ++ [(k, v)] := by
      unfold insertJs
      rw [hnotin]
      simp
    have hdisj2 : ∀ p ∈ acc ++ [(k, v)], p.1 ∉ rest.map Prod.fst := by
      intro p hp
      rcases List.mem_append.mp hp with hp1 | hp1
      · intro hmem
        refine hdisj p hp1 ?_
        rw [List.map_cons]
        exact List.mem_cons_of_mem _ hmem
      · simp only [List.mem_singleton] at hp1
        subst hp1
        exact hhead
    simp only [List.foldl_cons]
    rw [hins, dedupJs_aux rest (acc ++ [(k, v)]) hnd2 hdisj2]
    simp

theorem dedupJs_nodup (ms : List (List Char × Json))
    (h : (ms.map Prod.fst).Nodup) : dedupJs ms = ms := by
  have h2 := dedupJs_aux ms [] h
    (by intro p hp; exact absurd hp (List.not_mem_nil p))
  simpa [dedupJs] using h2

theorem find_assoc_nodup : ∀ (ms : List (List Char × Json)) (k : List Char)
    (v : Json), (ms.map Prod.fst).Nodup → (k, v) ∈ ms →
    ms.find? (fun p => p.1 = k) = some (k, v)
  | [], _, _, _, hmem => absurd hmem (by simp)
  | (k1, v1) :: rest, k, v, hnd, hmem => by
    by_cases hk : k1 = k
    · subst hk
      have hv : v1 = v := by
        rcases List.mem_cons.mp hmem with heq | hmem2
        · injection heq with h1 h2
          exact h2.symm
        · exfalso
          simp only [List.map_cons, List.nodup_cons] at hnd
          exact hnd.1 (List.mem_map.mpr ⟨(k1, v), ⟨hmem2, rfl⟩⟩)
      subst hv
      rw [List.find?_cons_of_pos _ (by simp)]
    · rw [List.find?_cons_of_neg _ (by simp [hk])]
      have hmem2 : (k, v) ∈ rest := by
        rcases List.mem_cons.mp hmem with heq | hmem2
        · exfalso
          injection heq with h1 h2
          exact hk h1.symm
        · exact hmem2
      have hnd2 : (rest.map Prod.fst).Nodup := by
        simp only [List.map_cons, List.nodup_cons] at hnd
        exact hnd.2
      exact find_assoc_nodup rest k v hnd2 hmem2


/-! ### Pipeline lemmas -/

theorem keyEnc_raw_mem_lt (ck : List Nat) (h : ∀ b ∈ ck, b < 256) :
    ∀ b ∈ keyEnc (.raw ck), b < 256 := by
  intro b hb
  simp only [keyEnc, List.mem_cons] at hb
  rcases hb with rfl | hb
  · omega
  · exact h b hb

theorem jsGet_obj_found (ms : List (List Char × Json)) (k : List Char)
    (p : List Char × Json) (h : ms.find? (fun q => q.1 = k) = some p) :
    jsGet (Json.obj ms) k = some (.ofJson p.2) := by
  simp only [jsGet, h]

theorem jsGet_obj_none (ms : List (List Char × Json)) (k : List Char)
    (h : ms.find? (fun q => q.1 = k) = none) :
    jsGet (Json.obj ms) k = (objectProtoEntry k).map JsVal.host := by
  simp only [jsGet, h]

theorem map_fst_wrapped (pks : List (List Char × PublicKey)) (ck : List Nat) :
    ((pks.map (fun p => (p.1, btoa (rsaOaepEncrypt p.2.id ck)))).map Prod.fst) =
      pks.map Prod.fst := by
  simp

/-- `insertIdx` compares keys only, so it commutes with mapping the values. -/
theorem insertIdx_map {α β : Type} (f : α → β) (p : List Char × α)
    (l : List (List Char × α)) :
    insertIdx (p.1, f p.2) (l.map (fun q => (q.1, f q.2))) =
      (insertIdx p l).map (fun q => (q.1, f q.2)) := by
  induction l with
  | nil => rfl
  | cons q qs ih =>
    simp only [List.map_cons, insertIdx]
    by_cases h : (arrayIndex p.1).getD 0 < (arrayIndex q.1).getD 0
    · rw [if_pos h, if_pos h]
      simp
    · rw [if_neg h, if_neg h, List.map_cons, ih]

/-- `sortIdx` compares keys only, so it commutes with mapping the values. -/
theorem sortIdx_map {α β : Type} (f : α → β) (l : List (List Char × α)) :
    sortIdx (l.map (fun q => (q.1, f q.2))) =
      (sortIdx l).map (fun q => (q.1, f q.2)) := by
  induction l with
  | nil => rfl
  | cons p ps ih => simp only [List.map_cons, sortIdx, ih, insertIdx_map]

theorem filterSome_map {α β : Type} (f : α → β) (l : List (List Char × α)) :
    (l.map (fun q => (q.1, f q.2))).filter
        (fun q => (arrayIndex q.1).isSome) =
      (l.filter (fun q => (arrayIndex q.1).isSome)).map
        (fun q => (q.1, f q.2)) := by
  induction l with
  | nil => rfl
  | cons p ps ih =>
    simp only [List.map_cons, List.filter_cons]
    by_cases h : (arrayIndex p.1).isSome
    · simp [h, ih]
    · simp [h, ih]

theorem filterNone_map {α β : Type} (f : α → β) (l : List (List Char × α)) :
    (l.map (fun q => (q.1, f q.2))).filter
        (fun q => (arrayIndex q.1).isNone) =
      (l.filter (fun q => (arrayIndex q.1).isNone)).map
        (fun q => (q.1, f q.2)) := by
  induction l with
  | nil => rfl
  | cons p ps ih =>
    simp only [List.map_cons, List.filter_cons]
    by_cases h : (arrayIndex p.1).isNone
    · simp [h, ih]
    · simp [h, ih]

/-- Enumeration order depends on the keys only. -/
theorem jsEnumOrder_map {α β : Type} (f : α → β) (l : List (List Char × α)) :
    jsEnumOrder (l.map (fun q => (q.1, f q.2))) =
      (jsEnumOrder l).map (fun q => (q.1, f q.2)) := by
  unfold jsEnumOrder
  rw [filterSome_map, filterNone_map, sortIdx_map, List.map_append]

/-- Shape detection plus key selection on a stringified multi-recipient map:
a present, non-empty entry is selected (the own property shadows the
prototype chain). -/
theorem resolve_strMap_found (m : List (List Char × List Char)) (i w : List Char)
    (hnd : (m.map Prod.fst).Nodup) (hmem : (i, w) ∈ m) (hw : w ≠ []) :
    resolveEncryptedKey (jsonStringifyStrMap m) i = some w := by
  have hnd2 : ((m.map (fun p => (p.1, Json.str p.2))).map Prod.fst).Nodup := by
    simpa using hnd
  have hmem2 : (i, Json.str w) ∈ m.map (fun p => (p.1, Json.str p.2)) :=
    List.mem_map.mpr ⟨(i, w), ⟨hmem, rfl⟩⟩
  unfold resolveEncryptedKey
  rw [jsonParse_strMap m, dedupJs_nodup _ hnd2]
  simp only [jsGet_obj_found _ i _ (find_assoc_nodup _ i (Json.str w) hnd2 hmem2)]
  rw [if_pos (by simp [jsValTruthy, jsTruthy, hw])]
  rfl

theorem find_strMap_absent (m : List (List Char × List Char)) (i : List Char)
    (habs : i ∉ m.map Prod.fst) :
    (m.map (fun q => (q.1, Json.str q.2))).find? (fun q => q.1 = i) = none := by
  rw [List.find?_eq_none]
  intro q hq
  simp only [decide_eq_true_eq]
  intro hqk
  apply habs
  subst hqk
  obtain ⟨q0, hq0, hq0e⟩ := List.mem_map.mp hq
  have hfst : q0.1 = q.1 := congrArg Prod.fst hq0e
  rw [← hfst]
  exact List.mem_map.mpr ⟨q0, ⟨hq0, rfl⟩⟩

/-- Shape detection plus fallback on a stringified multi-recipient map: an
identifier that is neither an own key nor an inherited `Object.prototype`
property selects the map's first value in JS enumeration order. -/
theorem resolve_strMap_fallback (p : List Char × List Char)
    (rest : List (List Char × List Char)) (i : List Char)
    (q : List Char × List Char)
    (hnd : (((p :: rest) : List (List Char × List Char)).map Prod.fst).Nodup)
    (habs : i ∉ (p :: rest).map Prod.fst)
    (hproto : objectProtoEntry i = none)
    (hq : (jsEnumOrder (p :: rest)).head? = some q) :
    resolveEncryptedKey (jsonStringifyStrMap (p :: rest)) i = some q.2 := by
  have hnd2 : (((p :: rest).map (fun q => (q.1, Json.str q.2))).map Prod.fst).Nodup := by
    simpa using hnd
  unfold resolveEncryptedKey
  rw [jsonParse_strMap (p :: rest), dedupJs_nodup _ hnd2]
  simp only [jsGet_obj_none _ i (find_strMap_absent _ i habs), hproto,
    Option.map_none]
  simp only [jsValues, jsEnumOrder_map, List.map_map, List.head?_map, hq,
    Option.map_some', Function.comp_apply]
  rfl

/-- On a stringified map, an identifier that is absent from the own keys but
present on `Object.prototype` selects the inherited, truthy host value
instead: the fallback to the first entry never runs, and the selected
"wrapped key" is the host object's `String()` coercion. -/
theorem resolve_strMap_proto (m : List (List Char × List Char)) (i s : List Char)
    (hnd : (m.map Prod.fst).Nodup)
    (habs : i ∉ m.map Prod.fst)
    (hproto : objectProtoEntry i = some s) :
    resolveEncryptedKey (jsonStringifyStrMap m) i = some s := by
  have hnd2 : ((m.map (fun q => (q.1, Json.str q.2))).map Prod.fst).Nodup := by
    simpa using hnd
  unfold resolveEncryptedKey
  rw [jsonParse_strMap m, dedupJs_nodup _ hnd2]
  simp only [jsGet_obj_none _ i (find_strMap_absent _ i habs), hproto,
    Option.map_some']
  rfl

/-- Every value inherited from `Object.prototype` coerces to a string with
characters outside the base64 alphabet (spaces, brackets, braces), so `atob`
throws on it. -/
theorem atob_objectProto_none (k s : List Char)
    (h : objectProtoEntry k = some s) : atob s = none := by
  unfold objectProtoEntry at h
  split_ifs at h with h1 h2 h3
  · rw [Option.some.injEq] at h
    subst h
    decide
  · rw [Option.some.injEq] at h
    subst h
    decide
  · rw [Option.some.injEq] at h
    subst h
    rcases h3 with h3 | h3 | h3 | h3 | h3 | h3 | h3 | h3 | h3 | h3 <;>
      (subst h3; decide)

/-- `decryptContinue` fails whenever the selected wrapped-key string is not
base64, whatever the other fields hold. -/
theorem decryptContinue_bad_key (ct ek iv : List Char) (priv : PrivateKey)
    (h : atob ek = none) : decryptContinue ct ek iv priv = none := by
  unfold decryptContinue
  cases atob ct with
  | none => rfl
  | some buf => rw [h]

/-- Resolution on the serialized empty map: the own lookup misses for every
identifier, and the fallback has no first value, so the outcome is exactly
the prototype chain's answer. -/
theorem resolve_empty_map (uid : List Char) :
    resolveEncryptedKey ['{', '}'] uid = objectProtoEntry uid := by
  unfold resolveEncryptedKey
  have hjp : jsonParse ['{', '}'] = some (Json.obj []) := rfl
  rw [hjp]
  cases hpe : objectProtoEntry uid with
  | none =>
    simp only [jsGet, List.find?_nil, hpe, Option.map_none]
    rfl
  | some s =>
    simp only [jsGet, List.find?_nil, hpe, Option.map_some']
    rfl

theorem parseValue_A (fuel : Nat) (r : List Char) :
    parseValue (fuel + 1) ('A' :: r) = none := by
  simp only [parseValue]
  rw [skipWs_not_ws _ _ (by decide)]
  simp +decide only [reduceIte]

theorem jsonParse_A (r : List Char) : jsonParse ('A' :: r) = none := by
  unfold jsonParse
  have hlen : ('A' :: r).length + 1 = r.length + 1 + 1 := by simp
  rw [hlen, parseValue_A (r.length + 1) r]

/-- A wrapped key's base64 form starts with `'A'` (its first byte is the high
byte of the 4-byte payload-length field, zero for any payload shorter than
2^24 bytes), so it can never parse as JSON: shape detection always takes the
legacy branch on it. -/
theorem btoa_rsa_shape (pub : Nat) (m : List Nat) (hm : m.length < 2 ^ 24) :
    ∃ t, btoa (rsaOaepEncrypt pub m) = 'A' :: t := by
  have h0 : m.length / 2 ^ 24 % 256 = 0 := by omega
  have hshape : rsaOaepEncrypt pub m =
      (m.length / 2 ^ 24 % 256) :: (m.length / 2 ^ 16 % 256) ::
        (m.length / 2 ^ 8 % 256) :: ((m.length % 256) :: (encodeLen pub ++ m)) := by
    simp [rsaOaepEncrypt, encodeLen]
  rw [hshape, btoa_cons3, h0]
  exact ⟨_, rfl⟩

theorem resolve_legacy (pub : Nat) (m : List Nat) (myId : List Char)
    (hm : m.length < 2 ^ 24) :
    resolveEncryptedKey (btoa (rsaOaepEncrypt pub m)) myId =
      some (btoa (rsaOaepEncrypt pub m)) := by
  obtain ⟨t, ht⟩ := btoa_rsa_shape pub m hm
  unfold resolveEncryptedKey
  rw [ht, jsonParse_A]

/-- The success pipeline of steps 2-4: decoding and unwrapping an envelope
body produced with the matching key material returns the plaintext. -/
theorem decryptContinue_roundtrip (P : List Char) (ck ivr : List Nat)
    (priv : PrivateKey) (hck32 : ck.length = 32) (hckB : ∀ b ∈ ck, b < 256)
    (hivB : ∀ b ∈ ivr, b < 256) (hpub : priv.id < 2 ^ 32)
    (hP : (textEncode P).length < 2 ^ 32) :
    decryptContinue (btoa (aesGcmEncrypt (.raw ck) ivr (textEncode P)))
      (btoa (rsaOaepEncrypt priv.id ck)) (btoa ivr) priv = some P := by
  have h1 : atob (btoa (aesGcmEncrypt (.raw ck) ivr (textEncode P))) =
      some (aesGcmEncrypt (.raw ck) ivr (textEncode P)) :=
    atob_btoa _ (aesGcmEncrypt_mem_lt _ _ _ (keyEnc_raw_mem_lt ck hckB) hivB
      (textEncode_mem_lt P))
  have h2 : atob (btoa (rsaOaepEncrypt priv.id ck)) =
      some (rsaOaepEncrypt priv.id ck) :=
    atob_btoa _ (rsaOaepEncrypt_mem_lt _ _ hckB)
  have h3 : atob (btoa ivr) = some ivr := atob_btoa _ hivB
  simp only [decryptContinue, h1, h2, h3, rsaOaepDecrypt_encrypt priv ck hpub,
    hck32, reduceIte, aesGcmDecrypt_encrypt _ _ _ hP, textDecode_textEncode]


/-! ### Claim theorems -/

/-- C1: Multi-recipient round trip — for every plaintext `P` and non-empty
recipient map (membership of recipient `i` makes it non-empty), decrypting the
envelope produced by `encryptMessage` (its ciphertext, the JSON-encoded
`encryptedKeys` map as the caller sends it, and its IV) with recipient `i`'s
matching private key and identifier returns `P`.  Side conditions record the
code's own data shapes: unique JS object keys, a 32-byte exported content key
and byte-valued `Uint8Array` contents, and a plaintext below the 2^32-byte
`ArrayBuffer` bound. -/
theorem C1_multi_recipient_round_trip
    (P : List Char) (pks : List (List Char × PublicKey)) (ck ivr : List Nat)
    (i : List Char) (pub : PublicKey) (priv : PrivateKey)
    (hnd : (pks.map Prod.fst).Nodup) (hmem : (i, pub) ∈ pks)
    (hmatch : priv.id = pub.id) (hpub : pub.id < 2 ^ 32)
    (hck32 : ck.length = 32) (hckB : ∀ b ∈ ck, b < 256)
    (hivB : ∀ b ∈ ivr, b < 256) (hP : (textEncode P).length < 2 ^ 32) :
    decryptMessage (encryptMessage P pks ck ivr).ciphertext
      (jsonStringifyStrMap (encryptMessage P pks ck ivr).encryptedKeys)
      (encryptMessage P pks ck ivr).iv priv i = some P := by
  have henv : (encryptMessage P pks ck ivr).encryptedKeys =
      pks.map (fun p => (p.1, btoa (rsaOaepEncrypt p.2.id ck))) := rfl
  have hmemw : (i, btoa (rsaOaepEncrypt pub.id ck)) ∈
      (encryptMessage P pks ck ivr).encryptedKeys := by
    rw [henv]
    exact List.mem_map.mpr ⟨(i, pub), ⟨hmem, rfl⟩⟩
  have hwne : btoa (rsaOaepEncrypt pub.id ck) ≠ [] := by
    rw [Ne, btoa_eq_nil_iff]
    intro h
    have := congrArg List.length h
    rw [rsaOaepEncrypt_length] at this
    simp at this
  have hres := resolve_strMap_found ((encryptMessage P pks ck ivr).encryptedKeys)
    i _ (by rw [henv, map_fst_wrapped]; exact hnd) hmemw hwne
  simp only [decryptMessage, hres]
  have hct : (encryptMessage P pks ck ivr).ciphertext =
      btoa (aesGcmEncrypt (.raw ck) ivr (textEncode P)) := rfl
  have hiv : (encryptMessage P pks ck ivr).iv = btoa ivr := rfl
  rw [hct, hiv, ← hmatch]
  exact decryptContinue_roundtrip P ck ivr priv hck32 hckB hivB
    (hmatch ▸ hpub) hP

theorem C1_witness :
    decryptMessage (encryptMessage ['h', 'i']
        [(['a'], ⟨5⟩), (['b'], ⟨7⟩)] (List.range 32) (List.range 12)).ciphertext
      (jsonStringifyStrMap (encryptMessage ['h', 'i']
        [(['a'], ⟨5⟩), (['b'], ⟨7⟩)] (List.range 32) (List.range 12)).encryptedKeys)
      (encryptMessage ['h', 'i']
        [(['a'], ⟨5⟩), (['b'], ⟨7⟩)] (List.range 32) (List.range 12)).iv
      ⟨7⟩ ['b'] = some ['h', 'i'] :=
  C1_multi_recipient_round_trip ['h', 'i'] [(['a'], ⟨5⟩), (['b'], ⟨7⟩)]
    (List.range 32) (List.range 12) ['b'] ⟨7⟩ ⟨7⟩
    (by decide) (by decide) rfl (by decide) (by decide) (by decide)
    (by decide) (by decide)

/-- C3 (amended): Recipient-resolution fallback — when the caller's
identifier is absent from a JSON multi-recipient map (string-valued, unique
keys, non-empty) AND is not the name of an inherited `Object.prototype`
property, the shape-detection step selects the map's first entry in JS
enumeration order (array-index-like keys in ascending numeric order first,
then the remaining keys in insertion order), and `decryptMessage` proceeds to
decrypt with exactly that wrapped-key value.  For inherited names such as
`"toString"` the truthy prototype property is selected instead and decryption
fails; see the counterexample. -/
theorem C3_recipient_fallback
    (p : List Char × List Char) (rest : List (List Char × List Char))
    (selfId ct iv : List Char) (priv : PrivateKey)
    (q : List Char × List Char)
    (hnd : (((p :: rest) : List (List Char × List Char)).map Prod.fst).Nodup)
    (habs : selfId ∉ (p :: rest).map Prod.fst)
    (hproto : objectProtoEntry selfId = none)
    (hq : (jsEnumOrder (p :: rest)).head? = some q) :
    resolveEncryptedKey (jsonStringifyStrMap (p :: rest)) selfId = some q.2 ∧
    decryptMessage ct (jsonStringifyStrMap (p :: rest)) iv priv selfId =
      decryptContinue ct q.2 iv priv := by
  have hres := resolve_strMap_fallback p rest selfId q hnd habs hproto hq
  exact ⟨hres, by simp only [decryptMessage, hres]⟩

theorem C3_witness :
    resolveEncryptedKey (jsonStringifyStrMap
        [(['5'], ['A', 'A', '=', '=']), (['3'], ['Q', 'Q', '=', '='])])
      ['c'] = some ['Q', 'Q', '=', '='] ∧
    decryptMessage ['x'] (jsonStringifyStrMap
        [(['5'], ['A', 'A', '=', '=']), (['3'], ['Q', 'Q', '=', '='])])
      ['y'] ⟨5⟩ ['c'] = decryptContinue ['x'] ['Q', 'Q', '=', '='] ['y'] ⟨5⟩ :=
  C3_recipient_fallback (['5'], ['A', 'A', '=', '='])
    [(['3'], ['Q', 'Q', '=', '='])] ['c'] ['x'] ['y'] ⟨5⟩
    (['3'], ['Q', 'Q', '=', '=']) (by decide) (by decide) (by decide)
    (by decide)

/-- C3 counterexample: with the multi-recipient map `{"a": <wrapped key>}`
and the absent caller identifier `"toString"`, member access hits the
inherited `Object.prototype.toString` — a truthy native function — so the
`||` fallback never runs: the selected "key" is the function's `String()`
coercion, `atob` throws on it, and `decryptMessage` fails, even though
decrypting with the map's first (and only) entry would have returned the
plaintext.  This refutes the original claim that every absent identifier
selects the map's first entry and decryption proceeds with it. -/
theorem C3_counterexample :
    resolveEncryptedKey
        (jsonStringifyStrMap (encryptMessage ['h', 'i'] [(['a'], ⟨5⟩)]
          (List.range 32) (List.range 12)).encryptedKeys) "toString".data =
      some (nativeFunctionString "toString".data) ∧
    nativeFunctionString "toString".data ≠
      btoa (rsaOaepEncrypt 5 (List.range 32)) ∧
    decryptMessage (encryptMessage ['h', 'i'] [(['a'], ⟨5⟩)]
        (List.range 32) (List.range 12)).ciphertext
      (jsonStringifyStrMap (encryptMessage ['h', 'i'] [(['a'], ⟨5⟩)]
        (List.range 32) (List.range 12)).encryptedKeys)
      (encryptMessage ['h', 'i'] [(['a'], ⟨5⟩)]
        (List.range 32) (List.range 12)).iv ⟨5⟩ "toString".data = none ∧
    decryptContinue (encryptMessage ['h', 'i'] [(['a'], ⟨5⟩)]
        (List.range 32) (List.range 12)).ciphertext
      (btoa (rsaOaepEncrypt 5 (List.range 32)))
      (encryptMessage ['h', 'i'] [(['a'], ⟨5⟩)]
        (List.range 32) (List.range 12)).iv ⟨5⟩ = some ['h', 'i'] := by
  have hres : resolveEncryptedKey
      (jsonStringifyStrMap (encryptMessage ['h', 'i'] [(['a'], ⟨5⟩)]
        (List.range 32) (List.range 12)).encryptedKeys) "toString".data =
      some (nativeFunctionString "toString".data) :=
    resolve_strMap_proto
      [(['a'], btoa (rsaOaepEncrypt 5 (List.range 32)))] "toString".data
      (nativeFunctionString "toString".data) (by decide) (by decide)
      (by decide)
  refine ⟨hres, by decide, ?_, ?_⟩
  · simp only [decryptMessage, hres]
    exact decryptContinue_bad_key _ _ _ ⟨5⟩
      (atob_objectProto_none "toString".data _ (by decide))
  · exact decryptContinue_roundtrip ['h', 'i'] (List.range 32) (List.range 12)
      ⟨5⟩ (by decide) (by decide) (by decide) (by decide) (by decide)

/-- C4: Legacy single-key format — a bare base64 wrapped-key value (the
payload-length header makes its base64 start with `'A'`, so `JSON.parse`
throws and shape detection takes the legacy branch without throwing,
regardless of the caller's identifier), and `decryptMessage` returns the
original plaintext when given the one private key the content key was wrapped
for. -/
theorem C4_legacy_single_key
    (P : List Char) (ck ivr : List Nat) (pub : PublicKey) (priv : PrivateKey)
    (selfId : List Char)
    (hmatch : priv.id = pub.id) (hpub : pub.id < 2 ^ 32)
    (hck32 : ck.length = 32) (hckB : ∀ b ∈ ck, b < 256)
    (hivB : ∀ b ∈ ivr, b < 256) (hP : (textEncode P).length < 2 ^ 32) :
    resolveEncryptedKey (btoa (rsaOaepEncrypt pub.id ck)) selfId =
      some (btoa (rsaOaepEncrypt pub.id ck)) ∧
    decryptMessage (btoa (aesGcmEncrypt (.raw ck) ivr (textEncode P)))
      (btoa (rsaOaepEncrypt pub.id ck)) (btoa ivr) priv selfId = some P := by
  have hres := resolve_legacy pub.id ck selfId (by rw [hck32]; norm_num)
  refine ⟨hres, ?_⟩
  simp only [decryptMessage, hres]
  rw [← hmatch]
  exact decryptContinue_roundtrip P ck ivr priv hck32 hckB hivB
    (hmatch ▸ hpub) hP

theorem C4_witness :
    resolveEncryptedKey (btoa (rsaOaepEncrypt 5 (List.range 32))) ['z'] =
      some (btoa (rsaOaepEncrypt 5 (List.range 32))) ∧
    decryptMessage
      (btoa (aesGcmEncrypt (.raw (List.range 32)) (List.range 12)
        (textEncode ['h', 'i'])))
      (btoa (rsaOaepEncrypt 5 (List.range 32))) (btoa (List.range 12))
      ⟨5⟩ ['z'] = some ['h', 'i'] :=
  C4_legacy_single_key ['h', 'i'] (List.range 32) (List.range 12) ⟨5⟩ ⟨5⟩ ['z']
    rfl (by decide) (by decide) (by decide) (by decide) (by decide)

/-- C6: Envelope invariant — every entry of the produced envelope's
wrapped-keys map is this recipient identifier paired with the RSA-OAEP
wrapping of the one content key; unwrapping any entry with the matching
private key yields those same raw content-key bytes, and that key decrypts
the envelope's ciphertext (with its IV) to the same plaintext. -/
theorem C6_envelope_invariant
    (P : List Char) (pks : List (List Char × PublicKey)) (ck ivr : List Nat)
    (idp : List Char) (pub : PublicKey) (priv : PrivateKey)
    (hmem : (idp, pub) ∈ pks) (hmatch : priv.id = pub.id)
    (hpub : pub.id < 2 ^ 32) (hckB : ∀ b ∈ ck, b < 256)
    (hivB : ∀ b ∈ ivr, b < 256) (hP : (textEncode P).length < 2 ^ 32) :
    (idp, btoa (rsaOaepEncrypt pub.id ck)) ∈
      (encryptMessage P pks ck ivr).encryptedKeys ∧
    atob (btoa (rsaOaepEncrypt pub.id ck)) = some (rsaOaepEncrypt pub.id ck) ∧
    rsaOaepDecrypt priv (rsaOaepEncrypt pub.id ck) = some ck ∧
    atob (encryptMessage P pks ck ivr).ciphertext =
      some (aesGcmEncrypt (.raw ck) ivr (textEncode P)) ∧
    atob (encryptMessage P pks ck ivr).iv = some ivr ∧
    aesGcmDecrypt (.raw ck) ivr (aesGcmEncrypt (.raw ck) ivr (textEncode P)) =
      some (textEncode P) ∧
    textDecode (textEncode P) = some P := by
  refine ⟨?_, ?_, ?_, ?_, ?_, ?_, ?_⟩
  · exact List.mem_map.mpr ⟨(idp, pub), ⟨hmem, rfl⟩⟩
  · exact atob_btoa _ (rsaOaepEncrypt_mem_lt _ _ hckB)
  · rw [← hmatch]
    exact rsaOaepDecrypt_encrypt priv ck (hmatch ▸ hpub)
  · exact atob_btoa _ (aesGcmEncrypt_mem_lt _ _ _ (keyEnc_raw_mem_lt ck hckB)
      hivB (textEncode_mem_lt P))
  · exact atob_btoa _ hivB
  · exact aesGcmDecrypt_encrypt _ _ _ hP
  · exact textDecode_textEncode P

theorem C6_witness :
    (['a'], btoa (rsaOaepEncrypt 5 (List.range 32))) ∈
      (encryptMessage ['h', 'i'] [(['a'], ⟨5⟩)] (List.range 32)
        (List.range 12)).encryptedKeys ∧
    atob (btoa (rsaOaepEncrypt 5 (List.range 32))) =
      some (rsaOaepEncrypt 5 (List.range 32)) ∧
    rsaOaepDecrypt ⟨5⟩ (rsaOaepEncrypt 5 (List.range 32)) =
      some (List.range 32) ∧
    atob (encryptMessage ['h', 'i'] [(['a'], ⟨5⟩)] (List.range 32)
        (List.range 12)).ciphertext =
      some (aesGcmEncrypt (.raw (List.range 32)) (List.range 12)
        (textEncode ['h', 'i'])) ∧
    atob (encryptMessage ['h', 'i'] [(['a'], ⟨5⟩)] (List.range 32)
        (List.range 12)).iv = some (List.range 12) ∧
    aesGcmDecrypt (.raw (List.range 32)) (List.range 12)
      (aesGcmEncrypt (.raw (List.range 32)) (List.range 12)
        (textEncode ['h', 'i'])) = some (textEncode ['h', 'i']) ∧
    textDecode (textEncode ['h', 'i']) = some ['h', 'i'] :=
  C6_envelope_invariant ['h', 'i'] [(['a'], ⟨5⟩)] (List.range 32)
    (List.range 12) ['a'] ⟨5⟩ ⟨5⟩ (by decide) rfl (by decide) (by decide)
    (by decide) (by decide)

/-- C10: Empty-recipients edge case — `encryptMessage` called with an empty
public-key map succeeds (no error path exists in the code), returning an
envelope whose wrapped-keys map is empty; such an envelope is undecryptable:
`decryptMessage` fails for every private key and identifier. -/
theorem C10_empty_recipients (P : List Char) (ck ivr : List Nat) :
    (encryptMessage P [] ck ivr).encryptedKeys = [] ∧
    (encryptMessage P [] ck ivr).ciphertext =
      btoa (aesGcmEncrypt (.raw ck) ivr (textEncode P)) ∧
    ∀ (priv : PrivateKey) (uid : List Char),
      decryptMessage (encryptMessage P [] ck ivr).ciphertext
        (jsonStringifyStrMap (encryptMessage P [] ck ivr).encryptedKeys)
        (encryptMessage P [] ck ivr).iv priv uid = none := by
  refine ⟨rfl, rfl, ?_⟩
  intro priv uid
  have hres : resolveEncryptedKey
      (jsonStringifyStrMap (encryptMessage P [] ck ivr).encryptedKeys) uid =
      objectProtoEntry uid := resolve_empty_map uid
  cases hpe : objectProtoEntry uid with
  | none => simp only [decryptMessage, hres, hpe]
  | some s =>
    simp only [decryptMessage, hres, hpe]
    exact decryptContinue_bad_key _ _ _ priv (atob_objectProto_none uid s hpe)


/-- C7: Non-existent owner — with no stored vault record for `ownerId`,
`retrievePrivateKey` resolves to `null` for every password: the password is
never checked (the `if (!data) return null` guard precedes any key
derivation). -/
theorem C7_nonexistent_owner (store : VaultStore) (ownerId : List Char)
    (h : getStore ownerId store = none) :
    ∀ password : List Char,
      retrievePrivateKey store ownerId password = some none := by
  intro pw
  simp only [retrievePrivateKey, h]

theorem C7_witness : getStore ['o'] ([] : VaultStore) = none ∧
    retrievePrivateKey ([] : VaultStore) ['o'] ['p', 'w'] = some none :=
  ⟨rfl, C7_nonexistent_owner [] ['o'] rfl ['p', 'w']⟩

theorem getStore_putStore_self (userId : List Char) (r : VaultRecord)
    (s : VaultStore) : getStore userId (putStore userId r s) = some r := by
  unfold getStore putStore
  rw [List.find?_cons_of_pos _ (by simp)]
  rfl

/-- C8: Vault wrap/unwrap round trip and wrong-password failure — after
`storePrivateKey`, retrieval with the same password succeeds and yields the
original private key, which still unwraps anything encrypted to its paired
public key; retrieval with any different password fails with a rejected
promise (AES-GCM authentication failure), the `UnlockFailed` signal. -/
theorem C8_vault_round_trip_wrong_password
    (store : VaultStore) (ownerId pw : List Char) (priv : PrivateKey)
    (pub : PublicKey) (rand : List Nat)
    (hmatch : priv.id = pub.id) (hid : priv.id < 2 ^ 32) :
    retrievePrivateKey (storePrivateKey store ownerId priv pw rand) ownerId pw
      = some (some priv) ∧
    (∀ msg : List Nat, rsaOaepDecrypt priv (rsaOaepEncrypt pub.id msg) =
      some msg) ∧
    (∀ pw' : List Char, pw' ≠ pw →
      retrievePrivateKey (storePrivateKey store ownerId priv pw rand) ownerId
        pw' = none) := by
  have hget : getStore ownerId (storePrivateKey store ownerId priv pw rand) =
      some (encryptPrivateKey priv pw rand) :=
    getStore_putStore_self ownerId _ store
  have hplen : (pkcs8Export priv).length < 2 ^ 32 := by
    unfold pkcs8Export
    rw [encodeLen_length]
    norm_num
  refine ⟨?_, ?_, ?_⟩
  · have hdec : decryptPrivateKey (encryptPrivateKey priv pw rand).encrypted
        (encryptPrivateKey priv pw rand).salt
        (encryptPrivateKey priv pw rand).iv pw = some priv := by
      unfold decryptPrivateKey encryptPrivateKey
      dsimp only
      rw [aesGcmDecrypt_encrypt _ _ _ hplen]
      exact pkcs8Import_pkcs8Export priv hid
    simp only [retrievePrivateKey, hget, hdec]
  · intro msg
    rw [← hmatch]
    exact rsaOaepDecrypt_encrypt priv msg (hmatch ▸ hid)
  · intro pw' hne
    have hwrong : aesGcmDecrypt
        (.derived pw' (encryptPrivateKey priv pw rand).salt 100000 .SHA256 256)
        (encryptPrivateKey priv pw rand).iv
        (encryptPrivateKey priv pw rand).encrypted = none := by
      unfold encryptPrivateKey
      dsimp only
      exact aesGcmDecrypt_wrong_key _ _ _ _ hplen
        (fun h => hne (keyEnc_derived_inj h).symm)
    have hdec : decryptPrivateKey (encryptPrivateKey priv pw rand).encrypted
        (encryptPrivateKey priv pw rand).salt
        (encryptPrivateKey priv pw rand).iv pw' = none := by
      unfold decryptPrivateKey
      rw [hwrong]
    simp only [retrievePrivateKey, hget, hdec]

theorem C8_witness :
    retrievePrivateKey (storePrivateKey [] ['o'] ⟨5⟩ ['p'] (List.range 28))
      ['o'] ['p'] = some (some ⟨5⟩) ∧
    rsaOaepDecrypt ⟨5⟩ (rsaOaepEncrypt 5 [9, 9]) = some [9, 9] ∧
    retrievePrivateKey (storePrivateKey [] ['o'] ⟨5⟩ ['p'] (List.range 28))
      ['o'] ['q'] = none :=
  ⟨(C8_vault_round_trip_wrong_password [] ['o'] ['p'] ⟨5⟩ ⟨5⟩ (List.range 28)
      rfl (by decide)).1,
   (C8_vault_round_trip_wrong_password [] ['o'] ['p'] ⟨5⟩ ⟨5⟩ (List.range 28)
      rfl (by decide)).2.1 [9, 9],
   (C8_vault_round_trip_wrong_password [] ['o'] ['p'] ⟨5⟩ ⟨5⟩ (List.range 28)
      rfl (by decide)).2.2 ['q'] (by decide)⟩

/-- C5 (counterexample): the stored JS object has exactly the fields
`encrypted`, `salt`, `iv` — looking up `iterations`, `hash` or `ownerId`
among the persisted record's fields finds nothing, refuting the claim that
the iteration count, hash and ownerId are persisted alongside the
ciphertext. -/
theorem C5_counterexample :
    getStore ['o'] (storePrivateKey [] ['o'] ⟨5⟩ ['p'] (List.range 28)) =
      some (encryptPrivateKey ⟨5⟩ ['p'] (List.range 28)) ∧
    (vaultRecordFields (encryptPrivateKey ⟨5⟩ ['p'] (List.range 28))).find?
      (fun f => f.1 = ['i', 't', 'e', 'r', 'a', 't', 'i', 'o', 'n', 's']) =
      none ∧
    (vaultRecordFields (encryptPrivateKey ⟨5⟩ ['p'] (List.range 28))).find?
      (fun f => f.1 = ['h', 'a', 's', 'h']) = none ∧
    (vaultRecordFields (encryptPrivateKey ⟨5⟩ ['p'] (List.range 28))).find?
      (fun f => f.1 = ['o', 'w', 'n', 'e', 'r', 'I', 'd']) = none := by
  refine ⟨getStore_putStore_self ['o'] _ [], ?_, ?_, ?_⟩ <;> decide

/-- C5 (amended): `storePrivateKey` derives the wrapping key by PBKDF2 with a
fresh 16-byte salt, 100,000 iterations, SHA-256 and a 256-bit output,
generates a fresh 12-byte IV, AES-GCM-encrypts the private key's PKCS8
serialization under that derived key and IV, and persists a record holding
exactly `{encrypted, salt, iv}` under the key `ownerId`, overwriting any
prior record.  The iteration count and hash are fixed constants of the code
(visible as parameters of the stored ciphertext's key), not persisted
fields, and `ownerId` is the store key, not a record field. -/
theorem C5_wrapAndStore_postcondition
    (store : VaultStore) (ownerId : List Char) (priv : PrivateKey)
    (pw : List Char) (rand : List Nat) (hrand : 28 ≤ rand.length) :
    getStore ownerId (storePrivateKey store ownerId priv pw rand) =
      some { encrypted := aesGcmEncrypt
               (.derived pw (rand.take 16) 100000 .SHA256 256)
               ((rand.drop 16).take 12) (pkcs8Export priv)
             salt := rand.take 16
             iv := (rand.drop 16).take 12 } ∧
    (rand.take 16).length = 16 ∧ ((rand.drop 16).take 12).length = 12 := by
  refine ⟨getStore_putStore_self ownerId _ store, ?_, ?_⟩
  · rw [List.length_take]
    omega
  · rw [List.length_take, List.length_drop]
    omega

theorem C5_witness :
    getStore ['o'] (storePrivateKey
        [(['o'], { encrypted := [], salt := [], iv := [] })]
        ['o'] ⟨5⟩ ['p'] (List.range 28)) =
      some { encrypted := aesGcmEncrypt
               (.derived ['p'] ((List.range 28).take 16) 100000 .SHA256 256)
               (((List.range 28).drop 16).take 12) (pkcs8Export ⟨5⟩)
             salt := (List.range 28).take 16
             iv := ((List.range 28).drop 16).take 12 } ∧
    ((List.range 28).take 16).length = 16 ∧
    (((List.range 28).drop 16).take 12).length = 12 :=
  C5_wrapAndStore_postcondition
    [(['o'], { encrypted := [], salt := [], iv := [] })]
    ['o'] ⟨5⟩ ['p'] (List.range 28) (by decide)

theorem btoa_encodeLen_length (n : Nat) : (btoa (encodeLen n)).length = 8 := by
  simp [encodeLen, btoa]

/-- C9: Public-key codec inverse — `importPublicKey ∘ exportPublicKey`
succeeds and returns a key with the same SPKI-DER bytes (in the model, the
same key), and `importPublicKey` fails for every string that is not the
base64-encoded SPKI-DER encoding of some RSA-OAEP/SHA-256 public key
(`MalformedKey`). -/
theorem C9_public_key_codec (k : PublicKey) (hk : k.id < 2 ^ 32) :
    importPublicKey (exportPublicKey k) = some k ∧
    ∀ s : List Char, (∀ k' : PublicKey, s ≠ exportPublicKey k') →
      importPublicKey s = none := by
  constructor
  · unfold importPublicKey exportPublicKey exportSpki
    rw [atob_btoa _ (fun b hb => encodeLen_mem_lt _ b hb)]
    exact importSpki_exportSpki k hk
  · intro s hs
    cases himp : importPublicKey s with
    | none => rfl
    | some k' =>
      exfalso
      unfold importPublicKey at himp
      cases hat : atob s with
      | none =>
        rw [hat] at himp
        exact absurd himp (by simp)
      | some bytes =>
        rw [hat] at himp
        obtain ⟨hb, hklt⟩ := importSpki_some himp
        obtain ⟨hbt, _⟩ := btoa_atob s bytes hat
        apply hs k'
        rw [← hbt, hb]
        rfl

theorem C9_witness :
    importPublicKey (exportPublicKey ⟨5⟩) = some ⟨5⟩ ∧
    importPublicKey ['%'] = none :=
  ⟨(C9_public_key_codec ⟨5⟩ (by decide)).1,
   (C9_public_key_codec ⟨5⟩ (by decide)).2 ['%'] (by
     intro k' h
     have hl := congrArg List.length h
     have h8 : (exportPublicKey k').length = 8 := btoa_encodeLen_length k'.id
     rw [h8] at hl
     exact absurd hl (by decide))⟩


/-- C2: Tamper detection and atomic failure — for an envelope produced by
`encryptMessage`, flipping any single bit of the ciphertext bytes, of the IV
bytes, or of the wrapped-key bytes of the recipient doing the decrypting
makes `decryptMessage` fail (`DecryptFailed`).  The `Option` result is
all-or-nothing: `none` carries no partial plaintext, and the AEAD
characterization (`aesGcmDecrypt_some`) shows a successful open returns
exactly the encrypted plaintext, never an incorrect one. -/
theorem C2_tamper_detection
    (P : List Char) (pks : List (List Char × PublicKey)) (ck ivr : List Nat)
    (i : List Char) (pub : PublicKey) (priv : PrivateKey)
    (hnd : (pks.map Prod.fst).Nodup) (hmem : (i, pub) ∈ pks)
    (hmatch : priv.id = pub.id) (hpub : pub.id < 2 ^ 32)
    (hck32 : ck.length = 32) (hckB : ∀ b ∈ ck, b < 256)
    (hivB : ∀ b ∈ ivr, b < 256) (hP : (textEncode P).length < 2 ^ 32) :
    (∀ p j, p < (aesGcmEncrypt (.raw ck) ivr (textEncode P)).length → j < 8 →
      decryptMessage
        (btoa (flipBit p j (aesGcmEncrypt (.raw ck) ivr (textEncode P))))
        (jsonStringifyStrMap (encryptMessage P pks ck ivr).encryptedKeys)
        (encryptMessage P pks ck ivr).iv priv i = none) ∧
    (∀ p j, p < ivr.length → j < 8 →
      decryptMessage (encryptMessage P pks ck ivr).ciphertext
        (jsonStringifyStrMap (encryptMessage P pks ck ivr).encryptedKeys)
        (btoa (flipBit p j ivr)) priv i = none) ∧
    (∀ p j, p < (rsaOaepEncrypt pub.id ck).length → j < 8 →
      decryptMessage (encryptMessage P pks ck ivr).ciphertext
        (jsonStringifyStrMap
          ((encryptMessage P pks ck ivr).encryptedKeys.map
            (fun q => if q.1 = i then
              (q.1, btoa (flipBit p j (rsaOaepEncrypt pub.id ck))) else q)))
        (encryptMessage P pks ck ivr).iv priv i = none) := by
  have henv : (encryptMessage P pks ck ivr).encryptedKeys =
      pks.map (fun p => (p.1, btoa (rsaOaepEncrypt p.2.id ck))) := rfl
  have hct : (encryptMessage P pks ck ivr).ciphertext =
      btoa (aesGcmEncrypt (.raw ck) ivr (textEncode P)) := rfl
  have hiv : (encryptMessage P pks ck ivr).iv = btoa ivr := rfl
  have hmemw : (i, btoa (rsaOaepEncrypt pub.id ck)) ∈
      (encryptMessage P pks ck ivr).encryptedKeys := by
    rw [henv]
    exact List.mem_map.mpr ⟨(i, pub), ⟨hmem, rfl⟩⟩
  have hwne : btoa (rsaOaepEncrypt pub.id ck) ≠ [] := by
    rw [Ne, btoa_eq_nil_iff]
    intro h
    have := congrArg List.length h
    rw [rsaOaepEncrypt_length] at this
    simp at this
  have hndw : (((encryptMessage P pks ck ivr).encryptedKeys).map
      Prod.fst).Nodup := by
    rw [henv, map_fst_wrapped]
    exact hnd
  have hres := resolve_strMap_found ((encryptMessage P pks ck ivr).encryptedKeys)
    i _ hndw hmemw hwne
  have h2 : atob (btoa (rsaOaepEncrypt pub.id ck)) =
      some (rsaOaepEncrypt pub.id ck) :=
    atob_btoa _ (rsaOaepEncrypt_mem_lt _ _ hckB)
  have h3 : atob (btoa ivr) = some ivr := atob_btoa _ hivB
  have h4 : rsaOaepDecrypt priv (rsaOaepEncrypt pub.id ck) = some ck := by
    rw [← hmatch]
    exact rsaOaepDecrypt_encrypt priv ck (hmatch ▸ hpub)
  have hctB : ∀ b ∈ aesGcmEncrypt (.raw ck) ivr (textEncode P), b < 256 :=
    aesGcmEncrypt_mem_lt _ _ _ (keyEnc_raw_mem_lt ck hckB) hivB
      (textEncode_mem_lt P)
  refine ⟨?_, ?_, ?_⟩
  · -- bit flip in the ciphertext
    intro p j hp hj
    simp only [decryptMessage, hres, hiv]
    have h1 : atob (btoa (flipBit p j (aesGcmEncrypt (.raw ck) ivr
        (textEncode P)))) = some (flipBit p j (aesGcmEncrypt (.raw ck) ivr
        (textEncode P))) :=
      atob_btoa _ (flipBit_mem_lt p j _ hj hctB)
    have h5 : aesGcmDecrypt (.raw ck) ivr
        (flipBit p j (aesGcmEncrypt (.raw ck) ivr (textEncode P))) = none :=
      aesGcmDecrypt_flip (.raw ck) ivr (textEncode P) p j hp
    simp only [decryptContinue, h1, h2, h3, h4, hck32, reduceIte, h5]
  · -- bit flip in the IV
    intro p j hp hj
    simp only [decryptMessage, hres, hct]
    have h1 : atob (btoa (aesGcmEncrypt (.raw ck) ivr (textEncode P))) =
        some (aesGcmEncrypt (.raw ck) ivr (textEncode P)) :=
      atob_btoa _ hctB
    have h3f : atob (btoa (flipBit p j ivr)) = some (flipBit p j ivr) :=
      atob_btoa _ (flipBit_mem_lt p j _ hj hivB)
    have h5 : aesGcmDecrypt (.raw ck) (flipBit p j ivr)
        (aesGcmEncrypt (.raw ck) ivr (textEncode P)) = none :=
      aesGcmDecrypt_wrong_iv (.raw ck) ivr (flipBit p j ivr) (textEncode P)
        hP (flipBit_length p j ivr).symm
        (fun h => flipBit_ne p j ivr hp h.symm)
    simp only [decryptContinue, h1, h2, h3f, h4, hck32, reduceIte, h5]
  · -- bit flip in this recipient's wrapped key
    intro p j hp hj
    have hmemw2 : (i, btoa (flipBit p j (rsaOaepEncrypt pub.id ck))) ∈
        (encryptMessage P pks ck ivr).encryptedKeys.map
          (fun q => if q.1 = i then
            (q.1, btoa (flipBit p j (rsaOaepEncrypt pub.id ck))) else q) := by
      refine List.mem_map.mpr ⟨(i, btoa (rsaOaepEncrypt pub.id ck)), ⟨hmemw, ?_⟩⟩
      rw [if_pos rfl]
    have hndw2 : ((((encryptMessage P pks ck ivr).encryptedKeys.map
        (fun q => if q.1 = i then
          (q.1, btoa (flipBit p j (rsaOaepEncrypt pub.id ck))) else q)).map
        Prod.fst).Nodup) := by
      have hkeys : (((encryptMessage P pks ck ivr).encryptedKeys.map
          (fun q => if q.1 = i then
            (q.1, btoa (flipBit p j (rsaOaepEncrypt pub.id ck))) else q)).map
          Prod.fst) =
          ((encryptMessage P pks ck ivr).encryptedKeys.map Prod.fst) := by
        rw [List.map_map]
        apply List.map_congr_left
        intro q hq
        by_cases hqi : q.1 = i
        · simp [hqi]
        · simp [hqi]
      rw [hkeys]
      exact hndw
    have hfne : btoa (flipBit p j (rsaOaepEncrypt pub.id ck)) ≠ [] := by
      rw [Ne, btoa_eq_nil_iff]
      intro h
      have := congrArg List.length h
      rw [flipBit_length, rsaOaepEncrypt_length] at this
      simp at this
    have hres2 := resolve_strMap_found _ i _ hndw2 hmemw2 hfne
    simp only [decryptMessage, hres2, hct, hiv]
    have h1 : atob (btoa (aesGcmEncrypt (.raw ck) ivr (textEncode P))) =
        some (aesGcmEncrypt (.raw ck) ivr (textEncode P)) :=
      atob_btoa _ hctB
    have h2f : atob (btoa (flipBit p j (rsaOaepEncrypt pub.id ck))) =
        some (flipBit p j (rsaOaepEncrypt pub.id ck)) :=
      atob_btoa _ (flipBit_mem_lt p j _ hj (rsaOaepEncrypt_mem_lt _ _ hckB))
    by_cases hp8 : p < 8
    · have h4f : rsaOaepDecrypt priv
          (flipBit p j (rsaOaepEncrypt pub.id ck)) = none := by
        rw [← hmatch]
        exact rsaOaepDecrypt_flip_header priv ck p j hp8
      simp only [decryptContinue, h1, h2f, h3, h4f]
    · have h4f : rsaOaepDecrypt priv
          (flipBit p j (rsaOaepEncrypt pub.id ck)) =
          some (flipBit (p - 8) j ck) := by
        rw [← hmatch]
        exact rsaOaepDecrypt_flip_payload priv ck p j (hmatch ▸ hpub) (by omega)
      have hp32 : p - 8 < ck.length := by
        rw [rsaOaepEncrypt_length, hck32] at hp
        omega
      have hlen32 : (flipBit (p - 8) j ck).length = 32 := by
        rw [flipBit_length]
        exact hck32
      have hkne : keyEnc (.raw ck) ≠ keyEnc (.raw (flipBit (p - 8) j ck)) :=
        fun h => flipBit_ne (p - 8) j ck hp32 (keyEnc_raw_inj h).symm
      have h5 : aesGcmDecrypt (.raw (flipBit (p - 8) j ck)) ivr
          (aesGcmEncrypt (.raw ck) ivr (textEncode P)) = none :=
        aesGcmDecrypt_wrong_key (.raw ck) (.raw (flipBit (p - 8) j ck)) ivr
          (textEncode P) hP hkne
      simp only [decryptContinue, h1, h2f, h3, h4f, hlen32, reduceIte, h5]

theorem C2_witness :
    decryptMessage
      (btoa (flipBit 0 0 (aesGcmEncrypt (.raw (List.range 32)) (List.range 12)
        (textEncode ['h', 'i']))))
      (jsonStringifyStrMap (encryptMessage ['h', 'i'] [(['a'], ⟨5⟩)]
        (List.range 32) (List.range 12)).encryptedKeys)
      (encryptMessage ['h', 'i'] [(['a'], ⟨5⟩)] (List.range 32)
        (List.range 12)).iv ⟨5⟩ ['a'] = none ∧
    decryptMessage
      (encryptMessage ['h', 'i'] [(['a'], ⟨5⟩)] (List.range 32)
        (List.range 12)).ciphertext
      (jsonStringifyStrMap (encryptMessage ['h', 'i'] [(['a'], ⟨5⟩)]
        (List.range 32) (List.range 12)).encryptedKeys)
      (btoa (flipBit 0 0 (List.range 12))) ⟨5⟩ ['a'] = none ∧
    decryptMessage
      (encryptMessage ['h', 'i'] [(['a'], ⟨5⟩)] (List.range 32)
        (List.range 12)).ciphertext
      (jsonStringifyStrMap ((encryptMessage ['h', 'i'] [(['a'], ⟨5⟩)]
        (List.range 32) (List.range 12)).encryptedKeys.map
          (fun q => if q.1 = ['a'] then
            (q.1, btoa (flipBit 9 0 (rsaOaepEncrypt 5 (List.range 32))))
          else q)))
      (encryptMessage ['h', 'i'] [(['a'], ⟨5⟩)] (List.range 32)
        (List.range 12)).iv ⟨5⟩ ['a'] = none :=
  ⟨(C2_tamper_detection ['h', 'i'] [(['a'], ⟨5⟩)] (List.range 32)
      (List.range 12) ['a'] ⟨5⟩ ⟨5⟩ (by decide) (by decide) rfl (by decide)
      (by decide) (by decide) (by decide) (by decide)).1 0 0 (by decide)
      (by decide),
   (C2_tamper_detection ['h', 'i'] [(['a'], ⟨5⟩)] (List.range 32)
      (List.range 12) ['a'] ⟨5⟩ ⟨5⟩ (by decide) (by decide) rfl (by decide)
      (by decide) (by decide) (by decide) (by decide)).2.1 0 0 (by decide)
      (by decide),
   (C2_tamper_detection ['h', 'i'] [(['a'], ⟨5⟩)] (List.range 32)
      (List.range 12) ['a'] ⟨5⟩ ⟨5⟩ (by decide) (by decide) rfl (by decide)
      (by decide) (by decide) (by decide) (by decide)).2.2 9 0 (by decide)
      (by decide)⟩

end Crypto
